import Mathlib

/-!
Shallow embedding of the `twosquares` package (`twosquares/__init__.py`):
sums-of-two-squares decomposition of primes (Cornacchia / Tonelli-Shanks)
and of general numbers (Gaussian-integer enumeration over a factorization).

Python integers are embedded as `ℕ` where the source only handles
non-negative values and as `ℤ` where signs occur (the `d` parameter and
quadratic-integer components).  Python `%` and `//` on `ℤ` coincide with
Lean's `%` and `/` for the positive divisors used here.  `while` loops are
embedded as fuel-indexed structural recursions; the fuel is instantiated at
a provably sufficient value, and exhaustion yields `none` (marking
divergence, which the theorems below rule out on the relevant inputs).
-/

set_option synthInstance.maxHeartbeats 1000000

/-- Fueled binary exponentiation; the fuel bounds the number of halvings of
the exponent. -/
def powModAux : ℕ → ℕ → ℕ → ℕ → ℕ
  | 0, _, _, m => 1 % m
  | fuel + 1, b, e, m =>
    if e = 0 then 1 % m
    else
      let half := powModAux fuel (b * b % m) (e / 2) m
      if e % 2 = 1 then half * b % m else half

/-- Python's three-argument `pow(b, e, m)`: modular exponentiation
(executable; `powMod_eq` proves it equal to `b ^ e % m`). -/
def powMod (b e m : ℕ) : ℕ := powModAux (e + 1) b e m

/-- Fueled ascending search for the floor square root: from `k`, keep
incrementing while `(k+1)^2` still fits below `n`. -/
def isqrtAux : ℕ → ℕ → ℕ → ℕ
  | 0, k, _ => k
  | fuel + 1, k, n => if (k + 1) * (k + 1) ≤ n then isqrtAux fuel (k + 1) n else k

/-- Python's `math.isqrt`: the floor square root (executable embedding;
its characterization is proved in `isqrt_le` / `lt_isqrt_succ`). -/
def isqrt (n : ℕ) : ℕ := isqrtAux n 0 n

/-- One fueled unfolding of the `while b > c` loop of `_euclids_algorithm`:
`r = a % b; a, b = b, r; if not b: return None`. -/
def euclidsLoop : ℕ → ℕ → ℕ → ℕ → Option ℕ
  | 0, _, _, _ => none
  | fuel + 1, a, b, c =>
    if c < b then
      let r := a % b
      if r = 0 then none else euclidsLoop fuel b r c
    else some b

/-- `_euclids_algorithm(a, b, c)`: run Euclid's remainder recurrence from
`(a, b)` until the second component drops to `c` or below; `none` if a zero
remainder appears first.  Each step strictly decreases `b`, so fuel `b + 1`
never runs out. -/
def _euclids_algorithm (a b c : ℕ) : Option ℕ := euclidsLoop (b + 1) a b c

/-- The `while q % 2 == 0: s += 1; q //= 2` loop of `_mod_sqrt_prime`:
returns `(s, q)` with the input split as `q * 2 ^ s`, `q` odd. -/
def split2 : ℕ → ℕ → ℕ × ℕ
  | 0, q => (0, q)
  | fuel + 1, q =>
    if q % 2 = 0 then
      let sq := split2 fuel (q / 2)
      (sq.1 + 1, sq.2)
    else (0, q)

/-- The `z = 2; while pow(z, (p - 1) // 2, p) != p - 1: z += 1` search of
`_mod_sqrt_prime` for a quadratic non-residue, fueled. -/
def findZ : ℕ → ℕ → ℕ → Option ℕ
  | 0, _, _ => none
  | fuel + 1, z, p => if powMod z ((p - 1) / 2) p = p - 1 then some z else findZ fuel (z + 1) p

/-- The inner `i = 1; t2i = t * t % p; while i < m and t2i != 1: ...` loop of
the Tonelli-Shanks iteration, fueled by `m - i`. -/
def tsFindI : ℕ → ℕ → ℕ → ℕ → ℕ → ℕ
  | 0, i, _, _, _ => i
  | fuel + 1, i, t2i, m, p =>
    if i < m ∧ t2i ≠ 1 then tsFindI fuel (i + 1) (t2i * t2i % p) m p else i

/-- The outer `while t != 1` loop of Tonelli-Shanks, acting on the state
`(m, c, t, r)`.  The source computes `pow(c, 1 << (m - i - 1), p)`, which
raises if `i ≥ m`; that case is embedded as `none`, as is fuel exhaustion. -/
def tsLoop : ℕ → ℕ → ℕ → ℕ → ℕ → ℕ → Option ℕ
  | 0, _, _, _, _, _ => none
  | fuel + 1, m, c, t, r, p =>
    if t = 1 then some r
    else
      let i := tsFindI m 1 (t * t % p) m p
      if i < m then
        let b := powMod c (2 ^ (m - i - 1)) p
        tsLoop fuel i (b * b % p) (t * (b * b % p) % p) (r * b % p) p
      else none

/-- `_mod_sqrt_prime(n, p)`: return `x` with `x * x % p == n % p`, or `none`
if no square root exists (`p` prime).  The input is an arbitrary integer,
reduced first by Python's non-negative `%`. -/
def _mod_sqrt_prime (a : ℤ) (p : ℕ) : Option ℕ :=
  let n : ℕ := (a % (p : ℤ)).toNat
  if n = 0 then some 0
  else if p = 2 then some n
  else if powMod n ((p - 1) / 2) p ≠ 1 then none
  else if p % 4 = 3 then some (powMod n ((p + 1) / 4) p)
  else
    let sq := split2 (p - 1) (p - 1)
    match findZ p 2 p with
    | none => none
    | some z =>
      tsLoop (sq.1 + 1) sq.1 (powMod z sq.2 p) (powMod n sq.2 p) (powMod n ((sq.2 + 1) / 2) p) p

/-- The two failure modes of `decompose_prime`: `ValueError` for `d < 1`
(`InvalidParameter`) and `ValueError: Could not decompose`
(`NoDecomposition`). -/
inductive DecompError where
  | invalidParameter : DecompError
  | noDecomposition : DecompError
deriving DecidableEq

/-- The local `_try_cornacchia_root(p, d, t)` of `decompose_prime`: Euclid
down to `isqrt p`, then check `p - x²` is a non-negative multiple of `d`
whose quotient is a perfect square.  (The final `abs` calls of the source
act on already non-negative values.) -/
def _try_cornacchia_root (p : ℕ) (d : ℤ) (t : ℕ) : Option (ℕ × ℕ) :=
  let p_sqrt := isqrt p
  match _euclids_algorithm p t p_sqrt with
  | none => none
  | some x =>
    let rhs : ℤ := (p : ℤ) - (x : ℤ) * (x : ℤ)
    if rhs < 0 ∨ rhs % d ≠ 0 then none
    else
      let y2 : ℕ := (rhs / d).toNat
      let y := isqrt y2
      if y * y ≠ y2 then none else some (x, y)

/-- `decompose_prime(p, d)`: decompose a prime `p` as `a² + d·b²`,
canonicalizing `a ≤ b` when `d = 1`. -/
def decompose_prime (p : ℕ) (d : ℤ) : Except DecompError (ℕ × ℕ) :=
  if d < 1 then .error .invalidParameter
  else if p = 2 then
    if d = 1 then .ok (1, 1)
    else if d = 2 then .ok (0, 1)
    else .error .noDecomposition
  else
    match _mod_sqrt_prime ((-d) % (p : ℤ)) p with
    | none => .error .noDecomposition
    | some t =>
      match (_try_cornacchia_root p d t).orElse (fun _ => _try_cornacchia_root p d ((p - t) % p)) with
      | none => .error .noDecomposition
      | some res => if res.2 < res.1 ∧ d = 1 then .ok (res.2, res.1) else .ok res

/-- Modelled from the spec: the external `quadint.complexint` value type,
a quadratic integer `real + imag·√(-d)` (the source of `quadint` is not
part of this repository). -/
structure complexint where
  real : ℤ
  imag : ℤ
deriving DecidableEq

/-- Modelled from the spec: the multiplication rule
`(a+b√−d)(c+e√−d) = (ac − d·b·e) + (ae+bc)√−d`. -/
def cmul (d : ℤ) (u v : complexint) : complexint :=
  ⟨u.real * v.real - d * u.imag * v.imag, u.real * v.imag + u.imag * v.real⟩

/-- Modelled from the spec: the norm `real² + d·imag²` of a quadratic
integer. -/
def cnorm (d : ℤ) (u : complexint) : ℤ := u.real ^ 2 + d * u.imag ^ 2

/-- Gaussian-integer (`d = 1`) multiplication, the instance used by
`decompose_number`. -/
def gmul (u v : complexint) : complexint := cmul 1 u v

/-- Modelled from the spec: integer power by repeated multiplication
(`complexint(1, 1) ** two_power`). -/
def gpow (u : complexint) : ℕ → complexint
  | 0 => ⟨1, 0⟩
  | n + 1 => gmul (gpow u n) u

/-- Modelled from the spec: the external factorization oracle
(`sympy.factorint` / PARI), by ascending trial division.  Inner loop:
extract the full multiplicity of a divisor, returning the exponent and the
cofactor. -/
def multiplicityAux : ℕ → ℕ → ℕ → ℕ × ℕ
  | 0, _, n => (0, n)
  | fuel + 1, d, n =>
    if 2 ≤ d ∧ n % d = 0 ∧ n ≠ 0 then
      let en := multiplicityAux fuel d (n / d)
      (en.1 + 1, en.2)
    else (0, n)

/-- Modelled from the spec: trial division over ascending candidate
divisors; every divisor found after all smaller ones are removed is prime. -/
def factorintAux : ℕ → ℕ → ℕ → List (ℕ × ℕ)
  | 0, _, _ => []
  | fuel + 1, d, n =>
    if n ≤ 1 then []
    else if n % d = 0 then
      let en := multiplicityAux n d n
      (d, en.1) :: factorintAux fuel (d + 1) en.2
    else factorintAux fuel (d + 1) n

/-- Modelled from the spec: `factorint(n)` maps each prime factor of `n` to
its exponent, in ascending prime order. -/
def factorint (n : ℕ) : List (ℕ × ℕ) := factorintAux (n + 2) 2 n

/-- Truthiness of the Python `check_count` optional: `None` and `0` are
falsy. -/
def ccTruthy : Option ℕ → Bool
  | none => false
  | some k => k != 0

/-- The value of `check_count` when present (only read under `ccTruthy`). -/
def ccVal : Option ℕ → ℕ
  | none => 0
  | some k => k

/-- Run `decompose_prime(p)` (default `d = 1`) for every key of `p_1`,
propagating its exception — the dict comprehension
`{p: decompose_prime(p) for p in factors}`. -/
def decomposeAll : List (ℕ × ℕ) → Except DecompError (List (ℕ × (ℕ × ℕ)))
  | [] => .ok []
  | (p, _) :: rest => do
    let dp ← decompose_prime p 1
    let r ← decomposeAll rest
    .ok ((p, dp) :: r)

/-- All tuples of `itertools.product([0, 1], repeat = n)` as boolean lists
(`true` selects the conjugate representative, index `1`). -/
def allChoices : ℕ → List (List Bool)
  | 0 => [[]]
  | n + 1 => (allChoices n).flatMap (fun bs => [false :: bs, true :: bs])

/-- The inner accumulation of `decompose_number`'s enumeration: multiply the
running total by the chosen representative (`(a+bj)` or `(a-bj)`) of each
prime-power occurrence. -/
def applyChoices (base : complexint) : List (complexint × complexint) → List Bool → complexint
  | [], _ => base
  | _, [] => base
  | occ :: occs, b :: bs => applyChoices (gmul base (if b then occ.2 else occ.1)) occs bs

/-- Record one enumerated total into the result set: take absolute parts,
drop trivial pairs when requested, sort ascending, and `add` to the set. -/
def addSol (noTriv : Bool) (found : Finset (ℕ × ℕ)) (t : complexint) : Finset (ℕ × ℕ) :=
  let sol : ℕ × ℕ := (t.real.natAbs, t.imag.natAbs)
  if noTriv ∧ (sol.1 = sol.2 ∨ sol.1 = 0 ∨ sol.2 = 0) then found
  else if sol.2 < sol.1 then insert (sol.2, sol.1) found else insert sol found

/-- `decompose_number(factors, check_count, limited_checks,
no_trivial_solutions)` on an already-factored input (the Python `dict`
branch; insertion-ordered dicts are embedded as association lists).  The
integer branch is `decompose_number_int` below. -/
def decompose_number (factors : List (ℕ × ℕ)) (check_count : Option ℕ)
    (limited_checks : Bool) (no_trivial_solutions : Bool) :
    Except DecompError (Finset (ℕ × ℕ)) :=
  if factors.length = 1 ∧ (factors.map Prod.snd).sum = 1 then
    let p := factors.headI.1
    if ccTruthy check_count ∧ 1 < ccVal check_count then .ok ∅
    else if p % 4 = 3 then .ok ∅
    else if p = 0 then .ok {(0, 0)}
    else if p = 2 ∧ no_trivial_solutions then .ok ∅
    else do
      let pr ← decompose_prime p 1
      .ok {pr}
  else
    let p_1 := factors.filter (fun pk => pk.1 % 4 = 1)
    let p_3 := factors.filter (fun pk => pk.1 % 4 = 3)
    if (limited_checks = false ∨ no_trivial_solutions = true) ∧
        p_3.any (fun pk => pk.2 % 2 = 1) then .ok ∅
    else if p_1 = [] ∧ no_trivial_solutions = true then .ok ∅
    else if ccTruthy check_count ∧ (p_1.map (fun pk => pk.2 + 1)).prod < ccVal check_count then
      .ok ∅
    else
      let two_power := (List.lookup 2 factors).getD 0
      let p_3_coefficients : ℕ := (p_3.map (fun pk => pk.1 ^ (pk.2 / 2))).prod
      do
        let decomps ← decomposeAll p_1
        let reps : List (ℕ × (complexint × complexint)) :=
          decomps.map (fun pd => (pd.1, (⟨pd.2.1, pd.2.2⟩, ⟨pd.2.1, -(pd.2.2 : ℤ)⟩)))
        let repOf : ℕ → complexint × complexint :=
          fun p => (List.lookup p reps).getD (⟨1, 0⟩, ⟨1, 0⟩)
        let base0 := gmul ⟨(p_3_coefficients : ℤ), 0⟩ (gpow ⟨1, 1⟩ two_power)
        let st :=
          if no_trivial_solutions then
            if p_1 = [] then (p_1, base0)
            else ((p_1.headI.1, p_1.headI.2 - 1) :: p_1.tail,
              gmul base0 (repOf p_1.headI.1).1)
          else (p_1, base0)
        let occs := st.1.flatMap (fun pk => List.replicate pk.2 (repOf pk.1))
        .ok ((allChoices occs.length).foldl
          (fun fd bs => addSol no_trivial_solutions fd (applyChoices st.2 occs bs)) ∅)

/-- `decompose_number` on an integer input: factor first. -/
def decompose_number_int (n : ℕ) (check_count : Option ℕ)
    (limited_checks : Bool) (no_trivial_solutions : Bool) :
    Except DecompError (Finset (ℕ × ℕ)) :=
  decompose_number (factorint n) check_count limited_checks no_trivial_solutions

/-- The predicted solution count used by the `check_count` pruning: the
product of `e + 1` over the exponents of the prime factors `≡ 1 (mod 4)`,
taken as `1` on the single-prime shortcut. -/
def predictedCount (factors : List (ℕ × ℕ)) : ℕ :=
  if factors.length = 1 ∧ (factors.map Prod.snd).sum = 1 then 1
  else ((factors.filter (fun pk => pk.1 % 4 = 1)).map (fun pk => pk.2 + 1)).prod

/-- Modelled from the claim under test: `decompose_number` with the
odd-exponent solvability check removed (what the algorithm computes when
that check is suppressed), for comparison with `decompose_number`. -/
def decompose_number_unchecked (factors : List (ℕ × ℕ)) (check_count : Option ℕ)
    (limited_checks : Bool) (no_trivial_solutions : Bool) :
    Except DecompError (Finset (ℕ × ℕ)) :=
  if factors.length = 1 ∧ (factors.map Prod.snd).sum = 1 then
    let p := factors.headI.1
    if ccTruthy check_count ∧ 1 < ccVal check_count then .ok ∅
    else if p % 4 = 3 then .ok ∅
    else if p = 0 then .ok {(0, 0)}
    else if p = 2 ∧ no_trivial_solutions then .ok ∅
    else do
      let pr ← decompose_prime p 1
      .ok {pr}
  else
    let p_1 := factors.filter (fun pk => pk.1 % 4 = 1)
    let p_3 := factors.filter (fun pk => pk.1 % 4 = 3)
    if p_1 = [] ∧ no_trivial_solutions = true then .ok ∅
    else if ccTruthy check_count ∧ (p_1.map (fun pk => pk.2 + 1)).prod < ccVal check_count then
      .ok ∅
    else
      let two_power := (List.lookup 2 factors).getD 0
      let p_3_coefficients : ℕ := (p_3.map (fun pk => pk.1 ^ (pk.2 / 2))).prod
      do
        let decomps ← decomposeAll p_1
        let reps : List (ℕ × (complexint × complexint)) :=
          decomps.map (fun pd => (pd.1, (⟨pd.2.1, pd.2.2⟩, ⟨pd.2.1, -(pd.2.2 : ℤ)⟩)))
        let repOf : ℕ → complexint × complexint :=
          fun p => (List.lookup p reps).getD (⟨1, 0⟩, ⟨1, 0⟩)
        let base0 := gmul ⟨(p_3_coefficients : ℤ), 0⟩ (gpow ⟨1, 1⟩ two_power)
        let st :=
          if no_trivial_solutions then
            if p_1 = [] then (p_1, base0)
            else ((p_1.headI.1, p_1.headI.2 - 1) :: p_1.tail,
              gmul base0 (repOf p_1.headI.1).1)
          else (p_1, base0)
        let occs := st.1.flatMap (fun pk => List.replicate pk.2 (repOf pk.1))
        .ok ((allChoices occs.length).foldl
          (fun fd bs => addSol no_trivial_solutions fd (applyChoices st.2 occs bs)) ∅)

/-- The brute-force reference set of the spec's test property: scan `x`
from `0` to `isqrt n` and keep `(x, y)` whenever `n - x²` is a perfect
square with `x ≤ y`. -/
def brute_force_twosquares (n : ℕ) : Finset (ℕ × ℕ) :=
  ((List.range (isqrt n + 1)).filterMap (fun x =>
    let r := n - x * x
    let y := isqrt r
    if y * y = r ∧ x ≤ y then some (x, y) else none)).toFinset

/-- The brute-force set with the trivial pairs (`x = 0` or `x = y`)
removed, the reference for the default `no_trivial_solutions` mode. -/
def brute_force_nontrivial (n : ℕ) : Finset (ℕ × ℕ) :=
  (brute_force_twosquares n).filter (fun xy => xy.1 ≠ 0 ∧ xy.1 ≠ xy.2)

deriving instance DecidableEq for Except

/-- Interpretation of the embedded `complexint` values (with `d = 1`) as
Mathlib Gaussian integers, for the correctness proofs. -/
def toGauss (u : complexint) : GaussianInt := ⟨u.real, u.imag⟩

/-- The natural-number norm `|re|² + |im|²` of a Gaussian integer. -/
def gNorm (w : GaussianInt) : ℕ := w.norm.natAbs

/-- The product `∏ p ^ e` of a factor list. -/
def prodFS (l : List (ℕ × ℕ)) : ℕ := (l.map (fun pk => pk.1 ^ pk.2)).prod

/-- The Gaussian product `∏ π(p)^c · conj(π(p))^(e-c)` of a factor list
with a list of split choices, used to state the factorization of a
Gaussian integer along its norm's split primes. -/
def splitGP (π : ℕ → GaussianInt) : List (ℕ × ℕ) → List ℕ → GaussianInt
  | [], _ => 1
  | _, [] => 1
  | pk :: l, c :: cs => π pk.1 ^ c * star (π pk.1) ^ (pk.2 - c) * splitGP π l cs

/-- The Gaussian product of the representatives selected by a choice
bitstring (mirroring the inner accumulation of the enumeration). -/
def gProd : List (complexint × complexint) → List Bool → GaussianInt
  | [], _ => 1
  | _, [] => 1
  | occ :: occs, b :: bs => toGauss (if b then occ.2 else occ.1) * gProd occs bs

/-- The sorted solution key an enumerated total contributes to the result
set (absolute parts, ascending). -/
def solKey (t : complexint) : ℕ × ℕ :=
  if t.imag.natAbs < t.real.natAbs then (t.imag.natAbs, t.real.natAbs)
  else (t.real.natAbs, t.imag.natAbs)

/-- The skip condition of the enumeration: in `no_trivial_solutions` mode a
total whose parts coincide or contain `0` is dropped. -/
def trivSkip (noTriv : Bool) (t : complexint) : Prop :=
  noTriv = true ∧ (t.real.natAbs = t.imag.natAbs ∨ t.real.natAbs = 0 ∨ t.imag.natAbs = 0)

instance (noTriv : Bool) (t : complexint) : Decidable (trivSkip noTriv t) := by
  unfold trivSkip
  infer_instance

/-! ### Theorems -/

/-- `powModAux` computes `b ^ e % m` whenever the fuel exceeds `e`. -/
theorem powModAux_eq : ∀ (fuel b e m : ℕ), e < fuel → powModAux fuel b e m = b ^ e % m := by
  intro fuel
  induction fuel with
  | zero => intro b e m h; omega
  | succ fuel ih =>
    intro b e m h
    rw [powModAux]
    by_cases he : e = 0
    · simp [he]
    · have hlt : e / 2 < fuel := by omega
      simp only [he, if_false]
      rw [ih (b * b % m) (e / 2) m hlt]
      rw [← Nat.pow_mod]
      rw [show b * b = b ^ 2 by ring, ← pow_mul]
      by_cases hodd : e % 2 = 1
      · rw [if_pos hodd, Nat.mod_mul_mod, ← pow_succ]
        have he2 : 2 * (e / 2) + 1 = e := by omega
        rw [he2]
      · rw [if_neg hodd]
        have he2 : 2 * (e / 2) = e := by omega
        rw [he2]

/-- `powMod` agrees with the mathematical `b ^ e % m`. -/
theorem powMod_eq (b e m : ℕ) : powMod b e m = b ^ e % m :=
  powModAux_eq (e + 1) b e m (Nat.lt_succ_self e)

/-- `powMod` is the `val` of the corresponding `ZMod` power. -/
theorem powMod_val (b e p : ℕ) [NeZero p] : powMod b e p = ((b : ZMod p) ^ e).val := by
  rw [powMod_eq, ← Nat.cast_pow, ZMod.val_natCast]

/-- Casting `powMod` into `ZMod p` gives the `ZMod` power. -/
theorem powMod_cast (b e p : ℕ) : ((powMod b e p : ℕ) : ZMod p) = (b : ZMod p) ^ e := by
  rw [powMod_eq, ZMod.natCast_mod, Nat.cast_pow]

/-- `powMod` is reduced modulo `p`. -/
theorem powMod_lt (b e p : ℕ) (hp : 0 < p) : powMod b e p < p := by
  rw [powMod_eq]; exact Nat.mod_lt _ hp

/-- The `== 1` test on `powMod` matches equality with `1` in `ZMod p`. -/
theorem powMod_eq_one_iff (b e p : ℕ) (hp : 1 < p) : powMod b e p = 1 ↔ (b : ZMod p) ^ e = 1 := by
  haveI : NeZero p := ⟨by omega⟩
  haveI : Fact (1 < p) := ⟨hp⟩
  rw [powMod_val]
  constructor
  · intro h
    have h2 := congrArg (fun v : ℕ => (v : ZMod p)) h
    simpa [ZMod.natCast_val, ZMod.cast_id] using h2
  · intro h
    rw [h, ZMod.val_one]

/-- C9: for every `d ≥ 1`, the norm `real² + d·imag²` is multiplicative for
the quadratic-integer multiplication rule
`(a+b√−d)(c+e√−d) = (ac − d·b·e) + (ae+bc)√−d`. -/
theorem cnorm_cmul (d : ℤ) (hd : 1 ≤ d) (u v : complexint) :
    cnorm d (cmul d u v) = cnorm d u * cnorm d v := by
  simp only [cnorm, cmul]
  ring

/-- Witness for `cnorm_cmul` at `d = 1`, `u = 1 + 2i`, `v = 3 + 4i`. -/
theorem cnorm_cmul_witness :
    (1 : ℤ) ≤ 1 ∧ cnorm 1 (cmul 1 ⟨1, 2⟩ ⟨3, 4⟩) = cnorm 1 ⟨1, 2⟩ * cnorm 1 ⟨3, 4⟩ :=
  ⟨le_refl 1, cnorm_cmul 1 (le_refl 1) ⟨1, 2⟩ ⟨3, 4⟩⟩

/-- C10: on the factor multiset `{0: 1}` (the oracle's factorization of
`n = 0`), `decompose_number` returns `{(0, 0)}` for both values of
`no_trivial_solutions` when `check_count` is absent or at most `1`, and the
empty set when `check_count > 1`. -/
theorem decompose_number_zero_factor (cc : Option ℕ) (lc nt : Bool) :
    (ccVal cc ≤ 1 → decompose_number [(0, 1)] cc lc nt = Except.ok {(0, 0)}) ∧
    (1 < ccVal cc → decompose_number [(0, 1)] cc lc nt = Except.ok ∅) := by
  constructor
  · intro hle
    have hcc : ¬(ccTruthy cc = true ∧ 1 < ccVal cc) := by
      rintro ⟨-, h1⟩; omega
    simp [decompose_number, hcc]
  · intro hgt
    have hcc : ccTruthy cc = true ∧ 1 < ccVal cc := by
      cases cc with
      | none => simp [ccVal] at hgt
      | some k =>
        refine ⟨?_, hgt⟩
        simp only [ccVal] at hgt
        simp [ccTruthy]
        omega
    simp [decompose_number, hcc]

/-- Witness for `decompose_number_zero_factor` at `check_count = 1` and
`check_count = 2`. -/
theorem decompose_number_zero_factor_witness :
    decompose_number [(0, 1)] (some 1) false true = Except.ok {(0, 0)} ∧
    decompose_number [(0, 1)] (some 2) false true = Except.ok ∅ :=
  ⟨(decompose_number_zero_factor (some 1) false true).1 (by decide),
   (decompose_number_zero_factor (some 2) false true).2 (by decide)⟩

/-- C8: whenever a positive `check_count` strictly exceeds the predicted
solution count, `decompose_number` returns the empty set. -/
theorem decompose_number_check_count (factors : List (ℕ × ℕ)) (k : ℕ) (lc nt : Bool)
    (hk : 0 < k) (hlt : predictedCount factors < k) :
    decompose_number factors (some k) lc nt = Except.ok ∅ := by
  have htruthy : ccTruthy (some k) = true := by simp [ccTruthy]; omega
  by_cases hshort : factors.length = 1 ∧ (factors.map Prod.snd).sum = 1
  · have h1 : predictedCount factors = 1 := by simp [predictedCount, hshort]
    rw [h1] at hlt
    have : ccTruthy (some k) = true ∧ 1 < ccVal (some k) := ⟨htruthy, hlt⟩
    simp [decompose_number, hshort, this]
  · have hpred : predictedCount factors =
        ((factors.filter (fun pk => pk.1 % 4 = 1)).map (fun pk => pk.2 + 1)).prod := by
      simp [predictedCount, hshort]
    rw [hpred] at hlt
    have h3 : ccTruthy (some k) = true ∧
        ((factors.filter (fun pk => pk.1 % 4 = 1)).map (fun pk => pk.2 + 1)).prod <
          ccVal (some k) := ⟨htruthy, hlt⟩
    simp only [decompose_number, if_neg hshort, if_pos h3]
    split_ifs <;> rfl

/-- Witness for `decompose_number_check_count`: `{3: 1, 7: 1}` has no
primes `≡ 1 (mod 4)`, so the predicted count is `1 < 2`. -/
theorem decompose_number_check_count_witness :
    decompose_number [(3, 1), (7, 1)] (some 2) false true = Except.ok ∅ :=
  decompose_number_check_count [(3, 1), (7, 1)] 2 false true (by decide) (by decide)

/-- C5 counterexample: with `limited_checks = true` and
`no_trivial_solutions = true` the odd-exponent solvability check still
fires — `decompose_number` on `{3: 1, 5: 1}` returns `∅` where the
check-suppressed algorithm returns `{(1, 2)}`.  The check is therefore not
suppressed "irrespective of the other flags". -/
theorem decompose_number_limited_checks_counterexample :
    decompose_number [(3, 1), (5, 1)] none true true = Except.ok ∅ ∧
    decompose_number_unchecked [(3, 1), (5, 1)] none true true = Except.ok {(1, 2)} := by
  constructor
  · decide
  · decide

/-- C5 (amended): the odd-exponent check on primes `≡ 3 (mod 4)` empties
the result whenever `limited_checks` is false or `no_trivial_solutions` is
true; it is suppressed only when `limited_checks` is true and
`no_trivial_solutions` is false, in which case `decompose_number` computes
exactly the check-suppressed algorithm. -/
theorem decompose_number_parity_check (factors : List (ℕ × ℕ)) (cc : Option ℕ) (lc nt : Bool) :
    ((lc = false ∨ nt = true) →
      ¬(factors.length = 1 ∧ (factors.map Prod.snd).sum = 1) →
      ((factors.filter (fun pk => pk.1 % 4 = 3)).any (fun pk => pk.2 % 2 = 1)) = true →
      decompose_number factors cc lc nt = Except.ok ∅) ∧
    (lc = true → nt = false →
      decompose_number factors cc lc nt = decompose_number_unchecked factors cc lc nt) := by
  constructor
  · intro hflag hshort hodd
    have hcond : (lc = false ∨ nt = true) ∧
        ((factors.filter (fun pk => pk.1 % 4 = 3)).any (fun pk => pk.2 % 2 = 1)) = true :=
      ⟨hflag, hodd⟩
    simp only [decompose_number, if_neg hshort, if_pos hcond]
  · rintro rfl rfl
    by_cases hshort : factors.length = 1 ∧ (factors.map Prod.snd).sum = 1
    · simp only [decompose_number, decompose_number_unchecked, if_pos hshort]
    · simp [decompose_number, decompose_number_unchecked, hshort]

/-- Witness for `decompose_number_parity_check` at `{3: 1, 5: 1}` (check
fires) and `{3: 1, 7: 1}` (check suppressed). -/
theorem decompose_number_parity_check_witness :
    decompose_number [(3, 1), (5, 1)] none false true = Except.ok ∅ ∧
    decompose_number [(3, 1), (7, 1)] none true false =
      decompose_number_unchecked [(3, 1), (7, 1)] none true false :=
  ⟨(decompose_number_parity_check [(3, 1), (5, 1)] none false true).1 (Or.inl rfl)
      (by decide) (by decide),
   (decompose_number_parity_check [(3, 1), (7, 1)] none true false).2 rfl rfl⟩

/-- Python's `(-1) % p` reduced again by `% p` is `p - 1`. -/
theorem neg_one_emod_emod (p : ℕ) (hp : 2 ≤ p) :
    ((-1 : ℤ) % (p : ℤ) % (p : ℤ)).toNat = p - 1 := by
  have h1 : ((-1 : ℤ) % (p : ℤ)) = (p : ℤ) - 1 := by
    have hbig : (2 : ℤ) ≤ (p : ℤ) := by exact_mod_cast hp
    rw [show (-1 : ℤ) = ((p : ℤ) - 1) + (p : ℤ) * (-1) by ring, Int.add_mul_emod_self_left]
    exact Int.emod_eq_of_lt (by omega) (by omega)
  rw [h1, Int.emod_eq_of_lt (by omega) (by omega)]
  omega

/-- For an odd prime and `a` with `a % p = p - 1` (that is, `a ≡ -1`), the
Legendre-test power in `_mod_sqrt_prime` is `(-1)^((p-1)/2)` in `ZMod p`. -/
theorem powMod_p_sub_one (p : ℕ) (hp : Nat.Prime p) :
    ((powMod (p - 1) ((p - 1) / 2) p : ℕ) : ZMod p) = (-1 : ZMod p) ^ ((p - 1) / 2) := by
  rw [powMod_cast]
  congr 1
  rw [Nat.cast_sub hp.one_le]
  simp [ZMod.natCast_self]

/-- C7: for every prime `p ≡ 3 (mod 4)`, `decompose_prime(p)` with the
default `d = 1` fails with `NoDecomposition`: `-1` is a quadratic
non-residue modulo such `p`, so the Legendre test inside
`_mod_sqrt_prime` rejects it. -/
theorem decompose_prime_three_mod_four (p : ℕ) (hp : Nat.Prime p) (h4 : p % 4 = 3) :
    decompose_prime p 1 = Except.error DecompError.noDecomposition := by
  haveI : Fact (Nat.Prime p) := ⟨hp⟩
  have hp2 : p ≠ 2 := by omega
  have hp3 : 3 ≤ p := by
    have := hp.two_le
    omega
  have hmod : ((-(1 : ℤ)) % (p : ℤ) % (p : ℤ)).toNat = p - 1 := neg_one_emod_emod p (by omega)
  have hn0 : ¬(p - 1 = 0) := by omega
  have hpow : ¬¬(powMod (p - 1) ((p - 1) / 2) p ≠ 1) := by
    rw [not_not]
    intro h
    have hcast := powMod_p_sub_one p hp
    rw [h, Nat.cast_one] at hcast
    have hodd : Odd ((p - 1) / 2) := by
      rw [Nat.odd_iff]
      omega
    rw [hodd.neg_one_pow] at hcast
    haveI : Fact (2 < p) := ⟨by omega⟩
    exact ZMod.neg_one_ne_one hcast.symm
  rw [not_not] at hpow
  simp only [decompose_prime, _mod_sqrt_prime]
  rw [if_neg (by norm_num : ¬(1 : ℤ) < 1)]
  rw [if_neg hp2]
  simp only [neg_neg, hmod, if_neg hn0, if_neg hp2, if_pos hpow]

/-- Witness for `decompose_prime_three_mod_four` at `p = 3`. -/
theorem decompose_prime_three_mod_four_witness :
    decompose_prime 3 1 = Except.error DecompError.noDecomposition :=
  decompose_prime_three_mod_four 3 (by norm_num) (by norm_num)

/-- `b ^ e % p` is the `val` of the corresponding `ZMod p` power. -/
theorem pow_mod_val (b e p : ℕ) [NeZero p] : b ^ e % p = ((b : ZMod p) ^ e).val := by
  rw [← Nat.cast_pow, ZMod.val_natCast]

/-- The `== 1` test on `b ^ e % p` matches equality with `1` in `ZMod p`. -/
theorem pow_mod_eq_one_iff (b e p : ℕ) (hp : 1 < p) : b ^ e % p = 1 ↔ (b : ZMod p) ^ e = 1 := by
  haveI : NeZero p := ⟨by omega⟩
  haveI : Fact (1 < p) := ⟨hp⟩
  rw [pow_mod_val]
  constructor
  · intro h
    have h2 := congrArg (fun v : ℕ => (v : ZMod p)) h
    simpa [ZMod.natCast_val, ZMod.cast_id] using h2
  · intro h
    rw [h, ZMod.val_one]

/-- Casts of naturals below `p` agree in `ZMod p` iff they are equal. -/
theorem cast_eq_cast_iff_of_lt {t s p : ℕ} (ht : t < p) (hs : s < p) :
    ((t : ZMod p) = (s : ZMod p)) ↔ t = s := by
  haveI : NeZero p := ⟨by omega⟩
  constructor
  · intro h
    have h2 := congrArg ZMod.val h
    rwa [ZMod.val_cast_of_lt ht, ZMod.val_cast_of_lt hs] at h2
  · rintro rfl
    rfl

/-- `(p - 1 : ℕ)` casts to `-1` in `ZMod p`. -/
theorem cast_p_sub_one (p : ℕ) (hp : 1 ≤ p) : ((p - 1 : ℕ) : ZMod p) = -1 := by
  rw [Nat.cast_sub hp]
  simp [ZMod.natCast_self]

/-- `split2` splits a positive number as an odd part times a power of two. -/
theorem split2_spec : ∀ (fuel q : ℕ), 0 < q → q ≤ fuel →
    (split2 fuel q).2 % 2 = 1 ∧ (split2 fuel q).2 * 2 ^ (split2 fuel q).1 = q := by
  intro fuel
  induction fuel with
  | zero => intro q hq hle; omega
  | succ fuel ih =>
    intro q hq hle
    rw [split2]
    by_cases he : q % 2 = 0
    · rw [if_pos he]
      have h2 : 0 < q / 2 := by omega
      have hle2 : q / 2 ≤ fuel := by omega
      obtain ⟨ho, hprod⟩ := ih (q / 2) h2 hle2
      refine ⟨ho, ?_⟩
      show (split2 fuel (q / 2)).2 * 2 ^ ((split2 fuel (q / 2)).1 + 1) = q
      rw [pow_succ, ← mul_assoc, hprod]
      omega
    · rw [if_neg he]
      exact ⟨by omega, by simp⟩

/-- `findZ` succeeds as soon as a witness lies within the fuel window. -/
theorem findZ_spec : ∀ (fuel z0 p : ℕ),
    (∃ z, z0 ≤ z ∧ z < z0 + fuel ∧ powMod z ((p - 1) / 2) p = p - 1) →
    ∃ z, findZ fuel z0 p = some z ∧ powMod z ((p - 1) / 2) p = p - 1 := by
  intro fuel
  induction fuel with
  | zero =>
    rintro z0 p ⟨z, h1, h2, -⟩
    omega
  | succ fuel ih =>
    intro z0 p hex
    rw [findZ]
    by_cases h : powMod z0 ((p - 1) / 2) p = p - 1
    · exact ⟨z0, by rw [if_pos h], h⟩
    · rw [if_neg h]
      apply ih
      obtain ⟨z, h1, h2, h3⟩ := hex
      refine ⟨z, ?_, by omega, h3⟩
      rcases Nat.eq_or_lt_of_le h1 with rfl | hlt
      · exact absurd h3 h
      · omega

/-- An odd prime has a quadratic non-residue `z` with `2 ≤ z < p` passing
the source's `pow(z, (p-1)//2, p) == p - 1` test. -/
theorem exists_nonresidue (p : ℕ) (hp : Nat.Prime p) (hodd : p % 2 = 1) :
    ∃ z, 2 ≤ z ∧ z < p ∧ powMod z ((p - 1) / 2) p = p - 1 := by
  haveI : Fact (Nat.Prime p) := ⟨hp⟩
  haveI : NeZero p := ⟨hp.ne_zero⟩
  have hp2 : p ≠ 2 := by omega
  have hp1 : 1 < p := hp.one_lt
  have hchar : ringChar (ZMod p) ≠ 2 := by
    rw [ZMod.ringChar_zmod_n]
    exact hp2
  obtain ⟨b, hb⟩ := FiniteField.exists_nonsquare hchar
  have hb0 : b ≠ 0 := fun h => hb (h ▸ ⟨0, by simp⟩)
  have hb1 : b ≠ 1 := fun h => hb (h ▸ ⟨1, by simp⟩)
  have hpow : b ^ (p / 2) = -1 :=
    (ZMod.pow_div_two_eq_neg_one_or_one p hb0).resolve_left
      (fun h => hb ((ZMod.euler_criterion p hb0).mpr h))
  refine ⟨b.val, ?_, b.val_lt, ?_⟩
  · have h0 : b.val ≠ 0 := fun h => hb0 (by rwa [ZMod.val_eq_zero] at h)
    have h1 : b.val ≠ 1 := by
      intro h
      apply hb1
      have h2 := congrArg (fun v : ℕ => (v : ZMod p)) h
      simpa [ZMod.natCast_rightInverse b] using h2
    omega
  · have hdiv : (p - 1) / 2 = p / 2 := by omega
    rw [hdiv, powMod_val, ZMod.natCast_rightInverse b, hpow]
    rw [← cast_p_sub_one p hp.one_le, ZMod.val_cast_of_lt (by omega)]

/-- The inner loop of Tonelli-Shanks returns the least `j ≥ i` with
`t ^ (2 ^ j) ≡ 1 (mod p)`, provided such a `j` exists below `m`. -/
theorem tsFindI_spec (p t : ℕ) : ∀ (fuel i j m : ℕ),
    1 ≤ i → i ≤ j → j < m →
    (∀ k, i ≤ k → k < j → t ^ (2 ^ k) % p ≠ 1) →
    t ^ (2 ^ j) % p = 1 →
    m - i ≤ fuel →
    tsFindI fuel i (t ^ (2 ^ i) % p) m p = j := by
  intro fuel
  induction fuel with
  | zero => intro i j m h1 hij hjm hmin hj hfuel; omega
  | succ fuel ih =>
    intro i j m h1 hij hjm hmin hj hfuel
    rw [tsFindI]
    rcases Nat.eq_or_lt_of_le hij with rfl | hlt
    · rw [if_neg]
      rintro ⟨-, hne⟩
      exact hne hj
    · rw [if_pos ⟨by omega, hmin i le_rfl hlt⟩]
      have hsq : t ^ (2 ^ i) % p * (t ^ (2 ^ i) % p) % p = t ^ (2 ^ (i + 1)) % p := by
        rw [(Nat.mul_mod (t ^ (2 ^ i)) (t ^ (2 ^ i)) p).symm, ← pow_add]
        congr 1
        rw [pow_succ]
        ring
      rw [hsq]
      exact ih (i + 1) j m (by omega) (by omega) hjm
        (fun k hk1 hk2 => hmin k (by omega) hk2) hj (by omega)

/-- The outer Tonelli-Shanks loop terminates and returns a square root of
`w`, given the standard loop invariants on `(m, c, t, r)`. -/
theorem tsLoop_spec (p : ℕ) (hp : Nat.Prime p) (w : ZMod p) :
    ∀ (fuel m c t r : ℕ),
    1 ≤ m → m ≤ fuel →
    c < p → t < p → r < p →
    (c : ZMod p) ^ (2 ^ (m - 1)) = -1 →
    (t : ZMod p) ^ (2 ^ (m - 1)) = 1 →
    (r : ZMod p) ^ 2 = w * (t : ZMod p) →
    ∃ rr, tsLoop fuel m c t r p = some rr ∧ rr < p ∧ (rr : ZMod p) ^ 2 = w := by
  haveI : Fact (Nat.Prime p) := ⟨hp⟩
  have hp1 : 1 < p := hp.one_lt
  intro fuel
  induction fuel with
  | zero => intro m c t r h1 hfuel; omega
  | succ fuel ih =>
    intro m c t r h1 hfuel hc ht hr hcinv htinv hrinv
    by_cases ht1 : t = 1
    · subst ht1
      rw [tsLoop, if_pos rfl]
      exact ⟨r, rfl, hr, by simpa using hrinv⟩
    · have htz : (t : ZMod p) ≠ 1 := by
        intro h
        refine ht1 ((cast_eq_cast_iff_of_lt ht hp1).mp ?_)
        rw [h, Nat.cast_one]
      have hm2 : 2 ≤ m := by
        by_contra hlt
        have hm1 : m = 1 := by omega
        subst hm1
        simp only [Nat.sub_self, pow_zero, pow_one] at htinv
        exact htz htinv
      have hdvd : orderOf (t : ZMod p) ∣ 2 ^ (m - 1) := orderOf_dvd_of_pow_eq_one htinv
      obtain ⟨a, ha, hord⟩ := (Nat.dvd_prime_pow Nat.prime_two).mp hdvd
      have ha1 : 1 ≤ a := by
        rcases Nat.eq_zero_or_pos a with rfl | h
        · rw [pow_zero, orderOf_eq_one_iff] at hord
          exact absurd hord htz
        · exact h
      have hta : (t : ZMod p) ^ (2 ^ a) = 1 := by
        rw [← hord]
        exact pow_orderOf_eq_one _
      have htmin : ∀ k, k < a → (t : ZMod p) ^ (2 ^ k) ≠ 1 := by
        intro k hk h
        have hdv := orderOf_dvd_of_pow_eq_one h
        rw [hord] at hdv
        have h2k : 2 ^ a ≤ 2 ^ k := Nat.le_of_dvd (Nat.pos_pow_of_pos k (by norm_num)) hdv
        have h2lt : 2 ^ k < 2 ^ a := Nat.pow_lt_pow_right (by norm_num) hk
        omega
      have htaN : t ^ (2 ^ a) % p = 1 := (pow_mod_eq_one_iff _ _ _ hp1).mpr hta
      have htminN : ∀ k, 1 ≤ k → k < a → t ^ (2 ^ k) % p ≠ 1 := fun k _ hk h =>
        htmin k hk ((pow_mod_eq_one_iff _ _ _ hp1).mp h)
      have hja : a < m := by omega
      have hfind : tsFindI m 1 (t * t % p) m p = a := by
        have h2 : t * t % p = t ^ (2 ^ 1) % p := by
          norm_num [pow_two]
        rw [h2]
        exact tsFindI_spec p t m 1 a m le_rfl ha1 hja
          (fun k hk1 hk2 => htminN k hk1 hk2) htaN (by omega)
      rw [tsLoop]
      rw [if_neg ht1]
      simp only [hfind, if_pos hja]
      have hbc : ((powMod c (2 ^ (m - a - 1)) p : ℕ) : ZMod p) =
          (c : ZMod p) ^ (2 ^ (m - a - 1)) := powMod_cast c _ p
      set b := powMod c (2 ^ (m - a - 1)) p with hbdef
      have hexp1 : 2 ^ (m - a - 1) + 2 ^ (m - a - 1) = 2 ^ (m - a) := by
        have hps := pow_succ 2 (m - a - 1)
        have hmm : m - a - 1 + 1 = m - a := by omega
        rw [hmm] at hps
        omega
      have hcnew : ((b * b % p : ℕ) : ZMod p) = (c : ZMod p) ^ (2 ^ (m - a)) := by
        rw [ZMod.natCast_mod, Nat.cast_mul, hbc, ← pow_add, hexp1]
      have hcpow : ((c : ZMod p) ^ (2 ^ (m - a))) ^ (2 ^ (a - 1)) = -1 := by
        rw [← pow_mul, ← pow_add]
        have hexp : m - a + (a - 1) = m - 1 := by omega
        rw [hexp, hcinv]
      have htsql : (t : ZMod p) ^ (2 ^ (a - 1)) = -1 := by
        have hsq : ((t : ZMod p) ^ (2 ^ (a - 1))) * ((t : ZMod p) ^ (2 ^ (a - 1))) = 1 := by
          rw [← pow_add]
          have hexp : 2 ^ (a - 1) + 2 ^ (a - 1) = 2 ^ a := by
            have hps := pow_succ 2 (a - 1)
            have haa : a - 1 + 1 = a := by omega
            rw [haa] at hps
            omega
          rw [hexp, hta]
        rcases mul_self_eq_one_iff.mp hsq with h | h
        · exact absurd h (htmin (a - 1) (by omega))
        · exact h
      refine ih a (b * b % p) (t * (b * b % p) % p) (r * b % p) ha1 (by omega)
        (Nat.mod_lt _ (by omega)) (Nat.mod_lt _ (by omega)) (Nat.mod_lt _ (by omega))
        ?_ ?_ ?_
      · rw [hcnew]
        exact hcpow
      · rw [ZMod.natCast_mod, Nat.cast_mul, hcnew, mul_pow, hcpow, htsql]
        norm_num
      · have hexp2 : 2 ^ (m - a - 1) * 2 = 2 ^ (m - a) := by
          have hps := pow_succ 2 (m - a - 1)
          have hmm : m - a - 1 + 1 = m - a := by omega
          rw [hmm] at hps
          omega
        rw [ZMod.natCast_mod (r * b) p, Nat.cast_mul, mul_pow, hrinv,
          ZMod.natCast_mod (t * (b * b % p)) p, Nat.cast_mul, hcnew, hbc,
          ← pow_mul, hexp2]
        ring

/-- The reduced input `n = (a % p).toNat` of `_mod_sqrt_prime` casts back
to `a` in `ZMod p` and lies below `p`. -/
theorem emod_toNat_cast (a : ℤ) (p : ℕ) (hp : 0 < p) :
    (((a % (p : ℤ)).toNat : ℕ) : ZMod p) = (a : ZMod p) ∧ (a % (p : ℤ)).toNat < p := by
  have hnonneg : 0 ≤ a % (p : ℤ) := Int.emod_nonneg a (by exact_mod_cast hp.ne')
  have hlt : a % (p : ℤ) < (p : ℤ) := Int.emod_lt_of_pos a (by exact_mod_cast hp)
  constructor
  · calc (((a % (p : ℤ)).toNat : ℕ) : ZMod p)
        = (((a % (p : ℤ)).toNat : ℤ) : ZMod p) := by push_cast; rfl
      _ = ((a % (p : ℤ) : ℤ) : ZMod p) := by rw [Int.toNat_of_nonneg hnonneg]
      _ = (a : ZMod p) := ZMod.intCast_mod a p
  · omega

/-- Correctness of `_mod_sqrt_prime` on odd primes: quadratic residues
(including `0`) produce a square root below `p`, non-residues produce
`none`. -/
theorem mod_sqrt_prime_spec (p : ℕ) (hp : Nat.Prime p) (hodd : p % 2 = 1) (a : ℤ) :
    (IsSquare (a : ZMod p) →
      ∃ r, _mod_sqrt_prime a p = some r ∧ r < p ∧ (r : ZMod p) ^ 2 = (a : ZMod p)) ∧
    (¬ IsSquare (a : ZMod p) → _mod_sqrt_prime a p = none) := by
  haveI : Fact (Nat.Prime p) := ⟨hp⟩
  haveI : NeZero p := ⟨hp.ne_zero⟩
  have hp1 : 1 < p := hp.one_lt
  have hp2 : p ≠ 2 := by omega
  have hp3 : 3 ≤ p := by
    have := hp.two_le
    omega
  obtain ⟨hcast, hnlt⟩ := emod_toNat_cast a p hp.pos
  by_cases hn0 : (a % (p : ℤ)).toNat = 0
  · have ha0 : (a : ZMod p) = 0 := by
      rw [← hcast, hn0, Nat.cast_zero]
    constructor
    · intro _
      refine ⟨0, ?_, hp.pos, by rw [ha0]; simp⟩
      simp [_mod_sqrt_prime, hn0]
    · intro hns
      exact absurd ⟨0, by rw [ha0]; simp⟩ hns
  · have ha0 : (a : ZMod p) ≠ 0 := by
      rw [← hcast]
      intro h
      have h0 : ((a % (p : ℤ)).toNat : ZMod p) = ((0 : ℕ) : ZMod p) := by
        rw [h, Nat.cast_zero]
      exact hn0 ((cast_eq_cast_iff_of_lt hnlt (show 0 < p by omega)).mp h0)
    have hl : powMod ((a % (p : ℤ)).toNat) ((p - 1) / 2) p = 1 ↔ IsSquare (a : ZMod p) := by
      rw [powMod_eq_one_iff _ _ _ hp1, hcast]
      have hdiv : (p - 1) / 2 = p / 2 := by omega
      rw [hdiv]
      exact (ZMod.euler_criterion p ha0).symm
    constructor
    · intro hsq
      have hleg : powMod ((a % (p : ℤ)).toNat) ((p - 1) / 2) p = 1 := hl.mpr hsq
      have hlegZ : (((a % (p : ℤ)).toNat : ℕ) : ZMod p) ^ ((p - 1) / 2) = 1 :=
        (powMod_eq_one_iff _ _ _ hp1).mp hleg
      have hnot : ¬(powMod ((a % (p : ℤ)).toNat) ((p - 1) / 2) p ≠ 1) := fun h => h hleg
      by_cases h43 : p % 4 = 3
      · refine ⟨powMod ((a % (p : ℤ)).toNat) ((p + 1) / 4) p, ?_, powMod_lt _ _ _ hp.pos, ?_⟩
        · simp only [_mod_sqrt_prime, if_neg hn0, if_neg hp2, if_neg hnot, if_pos h43]
        · rw [powMod_cast, ← pow_mul]
          have he1 : (p + 1) / 4 * 2 = (p - 1) / 2 + 1 := by omega
          rw [he1, pow_succ, hlegZ, one_mul, hcast]
      · have h41 : p % 4 = 1 := by omega
        obtain ⟨hqodd, hqs⟩ := split2_spec (p - 1) (p - 1) (by omega) le_rfl
        set s := (split2 (p - 1) (p - 1)).1 with hsdef
        set q := (split2 (p - 1) (p - 1)).2 with hqdef
        have hs2 : 2 ≤ s := by
          by_contra hcon
          have : s = 0 ∨ s = 1 := by omega
          rcases this with h | h <;> rw [h] at hqs <;> simp at hqs <;> omega
        have hhalf : q * 2 ^ (s - 1) = (p - 1) / 2 := by
          have hps := pow_succ 2 (s - 1)
          have hss : s - 1 + 1 = s := by omega
          rw [hss] at hps
          have h2 : q * 2 ^ (s - 1) * 2 = p - 1 := by
            rw [mul_assoc, ← hps]
            exact hqs
          omega
        obtain ⟨z0, hz2, hzlt, hzpow⟩ := exists_nonresidue p hp hodd
        obtain ⟨z, hzfind, hzP⟩ := findZ_spec p 2 p ⟨z0, hz2, by omega, hzpow⟩
        have hzneg : (z : ZMod p) ^ ((p - 1) / 2) = -1 := by
          have h := congrArg (fun v : ℕ => (v : ZMod p)) hzP
          simpa [powMod_cast, cast_p_sub_one p (by omega)] using h
        have hcinv : ((powMod z q p : ℕ) : ZMod p) ^ (2 ^ (s - 1)) = -1 := by
          rw [powMod_cast, ← pow_mul, hhalf]
          exact hzneg
        have htinv : ((powMod ((a % (p : ℤ)).toNat) q p : ℕ) : ZMod p) ^ (2 ^ (s - 1)) = 1 := by
          rw [powMod_cast, ← pow_mul, hhalf]
          exact hlegZ
        have hrinv : ((powMod ((a % (p : ℤ)).toNat) ((q + 1) / 2) p : ℕ) : ZMod p) ^ 2 =
            (a : ZMod p) * ((powMod ((a % (p : ℤ)).toNat) q p : ℕ) : ZMod p) := by
          rw [powMod_cast, powMod_cast, ← pow_mul]
          have he2 : (q + 1) / 2 * 2 = q + 1 := by omega
          rw [he2, pow_succ, hcast]
          ring
        obtain ⟨rr, hloop, hrrlt, hrr2⟩ := tsLoop_spec p hp (a : ZMod p) (s + 1) s
          (powMod z q p) (powMod ((a % (p : ℤ)).toNat) q p)
          (powMod ((a % (p : ℤ)).toNat) ((q + 1) / 2) p)
          (by omega) (by omega)
          (powMod_lt _ _ _ hp.pos) (powMod_lt _ _ _ hp.pos) (powMod_lt _ _ _ hp.pos)
          hcinv htinv hrinv
        refine ⟨rr, ?_, hrrlt, hrr2⟩
        simp only [_mod_sqrt_prime, if_neg hn0, if_neg hp2, if_neg hnot, if_neg h43, hzfind]
        exact hloop
    · intro hns
      have hleg : powMod ((a % (p : ℤ)).toNat) ((p - 1) / 2) p ≠ 1 := fun h => hns (hl.mp h)
      simp only [_mod_sqrt_prime, if_neg hn0, if_neg hp2, if_pos hleg]

/-- C4: for every odd prime `p` and integer `a`, `_mod_sqrt_prime(a, p)`
returns some `r` with `r² ≡ a (mod p)` when `a` is a quadratic residue
(returning `0` when `a ≡ 0`), and returns `none` exactly when the Legendre
power `a^((p-1)/2) mod p` is neither `1` nor `0`. -/
theorem mod_sqrt_prime_correct (p : ℕ) (hp : Nat.Prime p) (hodd : p % 2 = 1) (a : ℤ) :
    (IsSquare (a : ZMod p) →
      ∃ r, _mod_sqrt_prime a p = some r ∧ (r : ZMod p) ^ 2 = (a : ZMod p)) ∧
    ((a : ZMod p) = 0 → _mod_sqrt_prime a p = some 0) ∧
    (_mod_sqrt_prime a p = none ↔
      powMod ((a % (p : ℤ)).toNat) ((p - 1) / 2) p ≠ 1 ∧
      powMod ((a % (p : ℤ)).toNat) ((p - 1) / 2) p ≠ 0) := by
  haveI : Fact (Nat.Prime p) := ⟨hp⟩
  haveI : NeZero p := ⟨hp.ne_zero⟩
  have hp3 : 3 ≤ p := by
    have := hp.two_le
    omega
  obtain ⟨hres, hnres⟩ := mod_sqrt_prime_spec p hp hodd a
  obtain ⟨hcast, hnlt⟩ := emod_toNat_cast a p hp.pos
  refine ⟨fun h => (hres h).imp (fun r hr => ⟨hr.1, hr.2.2⟩), ?_, ?_, ?_⟩
  · intro h0
    have hdvd : (p : ℤ) ∣ a := (ZMod.intCast_zmod_eq_zero_iff_dvd a p).mp h0
    have hem : a % (p : ℤ) = 0 := Int.emod_eq_zero_of_dvd hdvd
    simp [_mod_sqrt_prime, hem]
  · intro hnone
    have hnsq : ¬ IsSquare (a : ZMod p) := by
      intro hsq
      obtain ⟨r, hr, -⟩ := hres hsq
      rw [hnone] at hr
      cases hr
    have ha0 : (a : ZMod p) ≠ 0 := fun h => hnsq ⟨0, by rw [h]; simp⟩
    constructor
    · intro h1
      have h2 := (powMod_eq_one_iff _ _ _ hp.one_lt).mp h1
      rw [hcast] at h2
      have hdiv : (p - 1) / 2 = p / 2 := by omega
      rw [hdiv] at h2
      exact hnsq ((ZMod.euler_criterion p ha0).mpr h2)
    · intro h0
      have hcast0 := congrArg (fun v : ℕ => (v : ZMod p)) h0
      simp only [powMod_cast, Nat.cast_zero] at hcast0
      rw [hcast] at hcast0
      exact ha0 ((pow_eq_zero_iff (by omega : (p - 1) / 2 ≠ 0)).mp hcast0)
  · rintro ⟨h1, h0⟩
    apply hnres
    intro hsq
    by_cases ha0 : (a : ZMod p) = 0
    · have hdvd := (ZMod.intCast_zmod_eq_zero_iff_dvd a p).mp ha0
      have hem : a % (p : ℤ) = 0 := Int.emod_eq_zero_of_dvd hdvd
      apply h0
      rw [hem, Int.toNat_zero, powMod_eq, zero_pow (by omega : (p - 1) / 2 ≠ 0), Nat.zero_mod]
    · apply h1
      rw [powMod_eq_one_iff _ _ _ hp.one_lt, hcast]
      have hdiv : (p - 1) / 2 = p / 2 := by omega
      rw [hdiv]
      exact (ZMod.euler_criterion p ha0).mp hsq

/-- Witness for `mod_sqrt_prime_correct` at `p = 13`, `a = 3 = 4²`. -/
theorem mod_sqrt_prime_correct_witness :
    ∃ r, _mod_sqrt_prime 3 13 = some r ∧ (r : ZMod 13) ^ 2 = ((3 : ℤ) : ZMod 13) :=
  (mod_sqrt_prime_correct 13 (by norm_num) (by norm_num) 3).1 ⟨4, by decide⟩

/-- The ascending search of `isqrtAux` brackets `n` once the fuel reaches
the true square root. -/
theorem isqrtAux_spec : ∀ (fuel k n : ℕ), k * k ≤ n → n < (k + fuel + 1) * (k + fuel + 1) →
    isqrtAux fuel k n * isqrtAux fuel k n ≤ n ∧
      n < (isqrtAux fuel k n + 1) * (isqrtAux fuel k n + 1) := by
  intro fuel
  induction fuel with
  | zero =>
    intro k n hk hub
    rw [isqrtAux]
    constructor
    · exact hk
    · simpa using hub
  | succ fuel ih =>
    intro k n hk hub
    rw [isqrtAux]
    by_cases h : (k + 1) * (k + 1) ≤ n
    · rw [if_pos h]
      exact ih (k + 1) n h (by
        have : k + 1 + fuel + 1 = k + (fuel + 1) + 1 := by omega
        rw [this]
        exact hub)
    · rw [if_neg h]
      exact ⟨hk, by omega⟩

/-- `isqrt` is a lower square root. -/
theorem isqrt_le (n : ℕ) : isqrt n * isqrt n ≤ n :=
  (isqrtAux_spec n 0 n (by simp) (by nlinarith)).1

/-- `isqrt` is the greatest lower square root. -/
theorem lt_isqrt_succ (n : ℕ) : n < (isqrt n + 1) * (isqrt n + 1) :=
  (isqrtAux_spec n 0 n (by simp) (by nlinarith)).2

/-- `isqrt` of a perfect square recovers the root. -/
theorem isqrt_sq (w : ℕ) : isqrt (w * w) = w := by
  have h1 := isqrt_le (w * w)
  have h2 := lt_isqrt_succ (w * w)
  nlinarith

/-- The Euclidean loop of Cornacchia's algorithm, with ghost Bezout
coefficients: starting from coprime `(a, b)` with the signed-coefficient
invariants in `ZMod p`, it ends at some `x ≤ c` that extends to a
representation `x² + y² = p`. -/
theorem euclidsLoop_cornacchia (p c : ℕ) (hp : Nat.Prime p)
    (hcp : p < (c + 1) * (c + 1)) (hc2 : c * c < p) (hc1 : 1 ≤ c) :
    ∀ (fuel a b wa wb : ℕ),
    b ≤ fuel →
    Nat.gcd a b = 1 →
    0 < b → c < a →
    a * wb + b * wa = p →
    (a : ZMod p) ^ 2 = -(wa : ZMod p) ^ 2 →
    (b : ZMod p) ^ 2 = -(wb : ZMod p) ^ 2 →
    (a : ZMod p) * (b : ZMod p) = (wa : ZMod p) * (wb : ZMod p) →
    ∃ x y, euclidsLoop fuel a b c = some x ∧ x * x + y * y = p ∧ 0 < x ∧ x ≤ c ∧ y ≤ c := by
  haveI : Fact (Nat.Prime p) := ⟨hp⟩
  haveI : NeZero p := ⟨hp.ne_zero⟩
  intro fuel
  induction fuel with
  | zero => intro a b wa wb hfuel; omega
  | succ fuel ih =>
    intro a b wa wb hfuel hgcd hb hca hI1 hJ1 hJ2 hJ3
    rw [euclidsLoop]
    by_cases hcb : c < b
    · rw [if_pos hcb]
      by_cases hr0 : a % b = 0
      · exfalso
        have hdvd : b ∣ a := Nat.dvd_of_mod_eq_zero hr0
        have hgb : Nat.gcd a b = b := Nat.gcd_eq_right hdvd
        omega
      · rw [if_neg hr0]
        have hqr : b * (a / b) + a % b = a := Nat.div_add_mod a b
        have hrb : a % b < b := Nat.mod_lt a (by omega)
        have hrcast : ((a % b : ℕ) : ZMod p) =
            (a : ZMod p) - ((a / b : ℕ) : ZMod p) * (b : ZMod p) := by
          have hcast := congrArg (fun v : ℕ => (v : ZMod p)) hqr
          push_cast at hcast
          linear_combination hcast
        refine ih b (a % b) wb (wa + a / b * wb) (by omega) ?_ (by omega) hcb ?_ hJ2 ?_ ?_
        · have h1 : Nat.gcd b a = Nat.gcd (a % b) b := Nat.gcd_rec b a
          rw [Nat.gcd_comm b (a % b)]
          rw [← h1, Nat.gcd_comm b a]
          exact hgcd
        · have hstep : b * (wa + a / b * wb) + a % b * wb =
              (b * (a / b) + a % b) * wb + b * wa := by ring
          rw [hstep, hqr]
          exact hI1
        · rw [hrcast]
          push_cast
          linear_combination hJ1 + ((a / b : ℕ) : ZMod p) ^ 2 * hJ2 -
            2 * ((a / b : ℕ) : ZMod p) * hJ3
        · rw [hrcast]
          push_cast
          linear_combination hJ3 - ((a / b : ℕ) : ZMod p) * hJ2
    · rw [if_neg hcb]
      refine ⟨b, wb, rfl, ?_, hb, by omega, ?_⟩
      · have hdvd : p ∣ b * b + wb * wb := by
          have hz : ((b * b + wb * wb : ℕ) : ZMod p) = 0 := by
            push_cast
            linear_combination hJ2
          exact (ZMod.natCast_zmod_eq_zero_iff_dvd _ p).mp hz
        have hwb : wb ≤ c := by
          by_contra hwb
          have h1 : (c + 1) * (c + 1) ≤ a * wb := by
            calc (c + 1) * (c + 1) ≤ a * (c + 1) :=
                  Nat.mul_le_mul_right _ (by omega)
            _ ≤ a * wb := Nat.mul_le_mul_left _ (by omega)
          omega
        have hub : b * b + wb * wb < 2 * p := by
          have h1 : b * b ≤ c * c := Nat.mul_le_mul (by omega) (by omega)
          have h2 : wb * wb ≤ c * c := Nat.mul_le_mul hwb hwb
          omega
        obtain ⟨k, hk⟩ := hdvd
        have hbpos : 0 < b * b := Nat.mul_pos hb hb
        rcases Nat.eq_zero_or_pos k with rfl | hkpos
        · omega
        · have hk1 : k = 1 := by
            by_contra hne
            have hk2 : 2 ≤ k := by omega
            have h2p : p * 2 ≤ p * k := Nat.mul_le_mul_left p hk2
            omega
          subst hk1
          omega
      · by_contra hwb
        have h1 : (c + 1) * (c + 1) ≤ a * wb := by
          calc (c + 1) * (c + 1) ≤ a * (c + 1) := Nat.mul_le_mul_right _ (by omega)
          _ ≤ a * wb := Nat.mul_le_mul_left _ (by omega)
        omega

/-- With `d = 1` and any modular square root `t` of `-1` (with `0 < t < p`),
the first Cornacchia attempt of `decompose_prime` succeeds and returns a
representation `x² + y² = p`. -/
theorem try_cornacchia_succeeds (p t : ℕ) (hp : Nat.Prime p) (ht0 : 0 < t) (htp : t < p)
    (ht2 : (t : ZMod p) ^ 2 = -1) :
    ∃ x y, _try_cornacchia_root p 1 t = some (x, y) ∧ x * x + y * y = p ∧ 0 < x := by
  haveI : Fact (Nat.Prime p) := ⟨hp⟩
  have hp1 : 1 < p := hp.one_lt
  have hcs := isqrt_le p
  have hcs2 := lt_isqrt_succ p
  have hc1 : 1 ≤ isqrt p := by
    by_contra h
    have h0 : isqrt p = 0 := by omega
    rw [h0] at hcs2
    omega
  have hc2 : isqrt p * isqrt p < p := by
    rcases Nat.lt_or_ge (isqrt p * isqrt p) p with h | h
    · exact h
    · exfalso
      have hsq : isqrt p * isqrt p = p := le_antisymm hcs h
      rcases Nat.Prime.eq_one_or_self_of_dvd hp (isqrt p) ⟨isqrt p, hsq.symm⟩ with h1 | h1
      · rw [h1] at hsq
        omega
      · rw [h1] at hsq
        nlinarith
  have hgcd : Nat.gcd p t = 1 := by
    have hnd : ¬ p ∣ t := fun hdvd => by
      have := Nat.le_of_dvd ht0 hdvd
      omega
    exact (Nat.Prime.coprime_iff_not_dvd hp).mpr hnd
  have hca : isqrt p < p := by nlinarith
  obtain ⟨x, y, hloop, hxy, hx0, hxc, hyc⟩ :=
    euclidsLoop_cornacchia p (isqrt p) hp hcs2 hc2 hc1 (t + 1) p t 0 1
      (by omega) hgcd ht0 hca (by omega)
      (by rw [ZMod.natCast_self]; push_cast; ring)
      (by push_cast; rw [ht2]; ring)
      (by rw [ZMod.natCast_self]; push_cast; ring)
  have heu : _euclids_algorithm p t (isqrt p) = some x := hloop
  have hxxp : x * x < p := by
    have h1 : x * x ≤ isqrt p * isqrt p := Nat.mul_le_mul hxc hxc
    omega
  have hyy : y * y = p - x * x := by omega
  refine ⟨x, y, ?_, hxy, hx0⟩
  have hrhs : ((p : ℤ) - (x : ℤ) * (x : ℤ)) = ((p - x * x : ℕ) : ℤ) := by
    push_cast [Nat.cast_sub (le_of_lt hxxp)]
    ring
  simp only [_try_cornacchia_root, heu]
  rw [if_neg]
  · have hy2 : (((p : ℤ) - (x : ℤ) * (x : ℤ)) / 1).toNat = p - x * x := by
      rw [Int.ediv_one, hrhs, Int.toNat_natCast]
    simp only [hy2, ← hyy, isqrt_sq]
    rw [if_neg (by omega : ¬ (y * y ≠ y * y))]
  · push_neg
    constructor
    · rw [hrhs]
      positivity
    · rw [Int.emod_one]

/-- For every prime `p ≡ 1 (mod 4)`, `decompose_prime(p)` with the default
`d = 1` succeeds and returns non-negative `x ≤ y` with `x² + y² = p`. -/
theorem decompose_prime_rep (p : ℕ) (hp : Nat.Prime p) (h41 : p % 4 = 1) :
    ∃ x y, decompose_prime p 1 = Except.ok (x, y) ∧ x ^ 2 + y ^ 2 = p ∧ x ≤ y := by
  haveI : Fact (Nat.Prime p) := ⟨hp⟩
  have hp1 : 1 < p := hp.one_lt
  have hp5 : 5 ≤ p := by
    have := hp.two_le
    omega
  have hp2 : p ≠ 2 := by omega
  have hodd : p % 2 = 1 := by omega
  have hsq : IsSquare ((((-1 : ℤ) % (p : ℤ) : ℤ)) : ZMod p) := by
    rw [ZMod.intCast_mod]
    push_cast
    exact ZMod.exists_sq_eq_neg_one_iff.mpr (by omega)
  obtain ⟨t, hsome, htlt, ht2⟩ := (mod_sqrt_prime_spec p hp hodd ((-1) % (p : ℤ))).1 hsq
  have ht2' : (t : ZMod p) ^ 2 = -1 := by
    rw [ht2, ZMod.intCast_mod]
    push_cast
    ring
  have ht0 : 0 < t := by
    rcases Nat.eq_zero_or_pos t with rfl | h
    · exfalso
      haveI : Fact (1 < p) := ⟨hp1⟩
      rw [Nat.cast_zero] at ht2'
      have h0 : (0 : ZMod p) = -1 := by
        rw [← ht2']
        ring
      have h1 : (1 : ZMod p) = 0 := by linear_combination h0
      exact one_ne_zero h1
    · exact h
  obtain ⟨x, y, htry, hxy, hx0⟩ := try_cornacchia_succeeds p t hp ht0 htlt ht2'
  have hres : (_try_cornacchia_root p 1 t).orElse
      (fun _ => _try_cornacchia_root p 1 ((p - t) % p)) = some (x, y) := by
    rw [htry]
    rfl
  by_cases hyx : y < x
  · refine ⟨y, x, ?_, ?_, by omega⟩
    · simp only [decompose_prime, if_neg (by norm_num : ¬(1 : ℤ) < 1), if_neg hp2,
        hsome, hres]
      simp [hyx]
    · rw [pow_two, pow_two]
      omega
  · refine ⟨x, y, ?_, ?_, by omega⟩
    · simp only [decompose_prime, if_neg (by norm_num : ¬(1 : ℤ) < 1), if_neg hp2,
        hsome, hres]
      simp [hyx]
    · rw [pow_two, pow_two]
      omega

/-- C3: for every prime `p ≡ 1 (mod 4)`, `decompose_prime(p)` with the
default `d = 1` succeeds and returns non-negative `x ≤ y` with
`x² + y² = p`. -/
theorem decompose_prime_one_mod_four (p : ℕ) (hp : Nat.Prime p) (h41 : p % 4 = 1) :
    ∃ x y, decompose_prime p 1 = Except.ok (x, y) ∧ x ^ 2 + y ^ 2 = p ∧ x ≤ y :=
  decompose_prime_rep p hp h41

/-- Witness for `decompose_prime_one_mod_four` at `p = 13`. -/
theorem decompose_prime_one_mod_four_witness :
    ∃ x y, decompose_prime 13 1 = Except.ok (x, y) ∧ x ^ 2 + y ^ 2 = 13 ∧ x ≤ y :=
  decompose_prime_one_mod_four 13 (by norm_num) (by norm_num)

/-- `multiplicityAux` removes every factor `d`: the cofactor is no longer
divisible by `d` and reassembles to the input. -/
theorem multiplicityAux_spec : ∀ (fuel d n : ℕ), 2 ≤ d → 0 < n → n ≤ fuel →
    ¬ d ∣ (multiplicityAux fuel d n).2 ∧
      (multiplicityAux fuel d n).2 * d ^ (multiplicityAux fuel d n).1 = n := by
  intro fuel
  induction fuel with
  | zero => intro d n hd hn hle; omega
  | succ fuel ih =>
    intro d n hd hn hle
    rw [multiplicityAux]
    by_cases hc : 2 ≤ d ∧ n % d = 0 ∧ n ≠ 0
    · rw [if_pos hc]
      have hdvd : d ∣ n := Nat.dvd_of_mod_eq_zero hc.2.1
      have hq : 0 < n / d := Nat.div_pos (Nat.le_of_dvd hn hdvd) (by omega)
      have hlt : n / d < n := Nat.div_lt_self hn (by omega)
      obtain ⟨hnd, hprod⟩ := ih d (n / d) hd hq (by omega)
      refine ⟨hnd, ?_⟩
      show (multiplicityAux fuel d (n / d)).2 * d ^ ((multiplicityAux fuel d (n / d)).1 + 1) = n
      rw [pow_succ, ← mul_assoc, hprod]
      exact Nat.div_mul_cancel hdvd
    · rw [if_neg hc]
      have hmod : ¬ n % d = 0 := by
        intro h
        exact hc ⟨hd, h, by omega⟩
      constructor
      · intro hdvd
        exact hmod (Nat.mod_eq_zero_of_dvd hdvd)
      · simp

/-- Entries of `factorintAux` are prime with positive exponent, given that
`n` has no divisor in `[2, d)`. -/
theorem factorintAux_primes : ∀ (fuel d n : ℕ), 2 ≤ d →
    (∀ k, 2 ≤ k → k < d → ¬ k ∣ n) →
    ∀ pk ∈ factorintAux fuel d n, Nat.Prime pk.1 ∧ 0 < pk.2 := by
  intro fuel
  induction fuel with
  | zero => intro d n hd hsmall pk hmem; simp [factorintAux] at hmem
  | succ fuel ih =>
    intro d n hd hsmall pk hmem
    rw [factorintAux] at hmem
    by_cases hn1 : n ≤ 1
    · simp [if_pos hn1] at hmem
    · rw [if_neg hn1] at hmem
      by_cases hmod : n % d = 0
      · rw [if_pos hmod] at hmem
        have hdvd : d ∣ n := Nat.dvd_of_mod_eq_zero hmod
        obtain ⟨hnd, hprod⟩ := multiplicityAux_spec n d n hd (by omega) le_rfl
        rcases List.mem_cons.mp hmem with heq | htail
        · subst heq
          constructor
          · rw [Nat.prime_def_lt]
            refine ⟨hd, fun m hm hmd => ?_⟩
            by_contra hm1
            have hm2 : 2 ≤ m := by
              rcases Nat.eq_zero_or_pos m with rfl | h
              · obtain ⟨c, hc⟩ := hmd
                omega
              · omega
            exact hsmall m hm2 hm (hmd.trans hdvd)
          · show 0 < (multiplicityAux n d n).1
            by_contra he
            have he0 : (multiplicityAux n d n).1 = 0 := by omega
            rw [he0, pow_zero, mul_one] at hprod
            rw [hprod] at hnd
            exact hnd hdvd
        · refine ih (d + 1) (multiplicityAux n d n).2 (by omega) ?_ pk htail
          intro k hk2 hkd hkdvd
          rcases Nat.lt_or_ge k d with hlt | hge
          · have hkn : k ∣ n := hkdvd.trans ⟨d ^ (multiplicityAux n d n).1, hprod.symm⟩
            exact hsmall k hk2 hlt hkn
          · have hkd2 : k = d := by omega
            subst hkd2
            exact hnd hkdvd
      · rw [if_neg hmod] at hmem
        refine ih (d + 1) n (by omega) ?_ pk hmem
        intro k hk2 hkd hkdvd
        rcases Nat.lt_or_ge k d with hlt | hge
        · exact hsmall k hk2 hlt hkdvd
        · have hkd2 : k = d := by omega
          subst hkd2
          exact hmod (Nat.mod_eq_zero_of_dvd hkdvd)

/-- Every entry produced by the factorization oracle model is a prime with
positive exponent. -/
theorem factorint_primes (n : ℕ) : ∀ pk ∈ factorint n, Nat.Prime pk.1 ∧ 0 < pk.2 :=
  factorintAux_primes (n + 2) 2 n le_rfl (fun k hk2 hk _ => by omega)

/-- `decomposeAll` succeeds when every key is a prime `≡ 1 (mod 4)`. -/
theorem decomposeAll_ok : ∀ (l : List (ℕ × ℕ)),
    (∀ pk ∈ l, Nat.Prime pk.1 ∧ pk.1 % 4 = 1) →
    ∃ ds, decomposeAll l = Except.ok ds := by
  intro l
  induction l with
  | nil => exact fun _ => ⟨[], rfl⟩
  | cons hd rest ih =>
    intro h
    obtain ⟨p, k⟩ := hd
    obtain ⟨hp, h41⟩ := h (p, k) (List.mem_cons_self (p, k) rest)
    obtain ⟨x, y, hxy, -, -⟩ := decompose_prime_rep p hp h41
    obtain ⟨ds, hds⟩ := ih (fun pk hm => h pk (List.mem_cons_of_mem _ hm))
    refine ⟨(p, (x, y)) :: ds, ?_⟩
    rw [decomposeAll, hxy]
    simp only [hds]
    rfl

/-- C6: `decompose_number` never raises on valid input: on any factor
multiset of genuine primes with positive exponents, and on any integer
`n ≥ 1`, it returns a set (possibly empty); exceptions are reserved for
`decompose_prime`. -/
theorem decompose_number_never_raises :
    (∀ (factors : List (ℕ × ℕ)) (cc : Option ℕ) (lc nt : Bool),
      (∀ pk ∈ factors, Nat.Prime pk.1 ∧ 0 < pk.2) →
      ∃ S, decompose_number factors cc lc nt = Except.ok S) ∧
    (∀ (n : ℕ) (cc : Option ℕ) (lc nt : Bool), 1 ≤ n →
      ∃ S, decompose_number_int n cc lc nt = Except.ok S) := by
  have main : ∀ (factors : List (ℕ × ℕ)) (cc : Option ℕ) (lc nt : Bool),
      (∀ pk ∈ factors, Nat.Prime pk.1 ∧ 0 < pk.2) →
      ∃ S, decompose_number factors cc lc nt = Except.ok S := by
    intro factors cc lc nt hprime
    by_cases hshort : factors.length = 1 ∧ (factors.map Prod.snd).sum = 1
    · by_cases h1 : ccTruthy cc = true ∧ 1 < ccVal cc
      · exact ⟨∅, by simp only [decompose_number, if_pos hshort, if_pos h1]⟩
      by_cases h2 : factors.headI.1 % 4 = 3
      · exact ⟨∅, by
          simp only [decompose_number, if_pos hshort, if_neg h1, if_pos h2]⟩
      by_cases h3 : factors.headI.1 = 0
      · exact ⟨{(0, 0)}, by
          simp only [decompose_number, if_pos hshort, if_neg h1, if_neg h2, if_pos h3]⟩
      by_cases h4 : factors.headI.1 = 2 ∧ nt = true
      · exact ⟨∅, by
          simp only [decompose_number, if_pos hshort, if_neg h1, if_neg h2, if_neg h3,
            if_pos h4]⟩
      · have hmem : factors.headI ∈ factors := by
          rcases factors with - | ⟨hd, tl⟩
          · simp at hshort
          · exact List.mem_cons_self hd tl
        have hp := (hprime _ hmem).1
        have hok : ∃ pr, decompose_prime factors.headI.1 1 = Except.ok pr := by
          by_cases hp2 : factors.headI.1 = 2
          · exact ⟨(1, 1), by rw [hp2]; decide⟩
          · have hodd : factors.headI.1 % 2 = 1 :=
              Nat.odd_iff.mp (hp.odd_of_ne_two hp2)
            have h41 : factors.headI.1 % 4 = 1 := by omega
            obtain ⟨x, y, hxy, -, -⟩ := decompose_prime_rep _ hp h41
            exact ⟨(x, y), hxy⟩
        obtain ⟨pr, hpr⟩ := hok
        refine ⟨{pr}, ?_⟩
        simp only [decompose_number, if_pos hshort, if_neg h1, if_neg h2, if_neg h3,
          if_neg h4, hpr]
        rfl
    · by_cases h1 : (lc = false ∨ nt = true) ∧
          ((factors.filter (fun pk => pk.1 % 4 = 3)).any (fun pk => pk.2 % 2 = 1)) = true
      · exact ⟨∅, by simp only [decompose_number, if_neg hshort, if_pos h1]⟩
      by_cases h2 : factors.filter (fun pk => pk.1 % 4 = 1) = [] ∧ nt = true
      · exact ⟨∅, by simp only [decompose_number, if_neg hshort, if_neg h1, if_pos h2]⟩
      by_cases h3 : ccTruthy cc = true ∧
          ((factors.filter (fun pk => pk.1 % 4 = 1)).map (fun pk => pk.2 + 1)).prod < ccVal cc
      · exact ⟨∅, by
          simp only [decompose_number, if_neg hshort, if_neg h1, if_neg h2, if_pos h3]⟩
      · have hp1 : ∀ pk ∈ factors.filter (fun pk => pk.1 % 4 = 1),
            Nat.Prime pk.1 ∧ pk.1 % 4 = 1 := by
          intro pk hm
          rw [List.mem_filter] at hm
          exact ⟨(hprime pk hm.1).1, by simpa using hm.2⟩
        obtain ⟨ds, hds⟩ := decomposeAll_ok _ hp1
        simp only [decompose_number, if_neg hshort, if_neg h1, if_neg h2, if_neg h3, hds]
        exact ⟨_, rfl⟩
  exact ⟨main, fun n cc lc nt _ => main (factorint n) cc lc nt (factorint_primes n)⟩

/-- Witness for `decompose_number_never_raises` at `{3: 2}` and `n = 10`. -/
theorem decompose_number_never_raises_witness :
    (∃ S, decompose_number [(3, 2)] none false true = Except.ok S) ∧
    (∃ S, decompose_number_int 10 none false true = Except.ok S) :=
  ⟨decompose_number_never_raises.1 [(3, 2)] none false true
      (fun pk hm => by
        simp only [List.mem_singleton] at hm
        subst hm
        exact ⟨by norm_num, by norm_num⟩),
   decompose_number_never_raises.2 10 none false true (by norm_num)⟩

/-- The Gaussian norm in terms of components. -/
theorem gNorm_eq (w : GaussianInt) : (gNorm w : ℤ) = w.re * w.re + w.im * w.im := by
  rw [gNorm, Int.natAbs_of_nonneg (Zsqrtd.norm_nonneg (by norm_num) w), Zsqrtd.norm_def]
  ring

/-- `gNorm` is multiplicative. -/
theorem gNorm_mul (z w : GaussianInt) : gNorm (z * w) = gNorm z * gNorm w := by
  rw [gNorm, gNorm, gNorm, Zsqrtd.norm_mul, Int.natAbs_mul]

/-- `gNorm` of a natural cast. -/
theorem gNorm_natCast (q : ℕ) : gNorm (q : GaussianInt) = q * q := by
  rw [gNorm, Zsqrtd.norm_natCast, Int.natAbs_mul, Int.natAbs_ofNat]

/-- `gNorm` of a conjugate. -/
theorem gNorm_star (w : GaussianInt) : gNorm (star w) = gNorm w := by
  rw [gNorm, gNorm, Zsqrtd.norm_conj]

/-- A Gaussian integer of prime norm is prime. -/
theorem prime_of_gNorm_prime (z : GaussianInt) (hp : Nat.Prime (gNorm z)) : Prime z := by
  rw [← irreducible_iff_prime]
  constructor
  · intro hu
    rw [← Zsqrtd.norm_eq_one_iff] at hu
    rw [gNorm] at hp
    rw [hu] at hp
    norm_num at hp
  · intro a b hab
    have hnorm : gNorm a * gNorm b = gNorm z := by rw [← gNorm_mul, ← hab]
    have hdvd : gNorm a ∣ gNorm z := ⟨gNorm b, hnorm.symm⟩
    rcases (Nat.Prime.eq_one_or_self_of_dvd hp _ hdvd) with h | h
    · left
      rw [← Zsqrtd.norm_eq_one_iff]
      exact h
    · right
      rw [← Zsqrtd.norm_eq_one_iff]
      have hb : gNorm z * gNorm b = gNorm z * 1 := by
        calc gNorm z * gNorm b = gNorm a * gNorm b := by rw [h]
        _ = gNorm z := hnorm
        _ = gNorm z * 1 := (mul_one _).symm
      exact Nat.eq_of_mul_eq_mul_left hp.pos hb

/-- Transfer divisibility through conjugation. -/
theorem star_dvd_of_dvd_star {a b : GaussianInt} (h : a ∣ star b) : star a ∣ b := by
  obtain ⟨c, hc⟩ := h
  refine ⟨star c, ?_⟩
  have h2 := congrArg star hc
  rwa [star_star, star_mul, mul_comm] at h2

/-- A Gaussian prime dividing `gNorm w` (as a rational integer) divides `w`
or its conjugate divides `w`. -/
theorem prime_dvd_or_star_dvd (π w : GaussianInt) (hπ : Prime π)
    (h : π ∣ ((gNorm w : ℕ) : GaussianInt)) : π ∣ w ∨ star π ∣ w := by
  have hcast : ((gNorm w : ℕ) : GaussianInt) = w * star w := by
    have h1 : ((gNorm w : ℕ) : ℤ) = w.norm :=
      Int.natAbs_of_nonneg (Zsqrtd.norm_nonneg (by norm_num) w)
    calc ((gNorm w : ℕ) : GaussianInt) = (((gNorm w : ℕ) : ℤ) : GaussianInt) :=
          (Int.cast_natCast _).symm
    _ = ((w.norm : ℤ) : GaussianInt) := by rw [h1]
    _ = w * star w := Zsqrtd.norm_eq_mul_conj w
  rw [hcast] at h
  rcases hπ.dvd_or_dvd h with h2 | h2
  · exact Or.inl h2
  · exact Or.inr (star_dvd_of_dvd_star h2)

/-- Peeling a split prime: if `p^e` divides the norm budget, `w` factors as
`π^c (star π)^(e-c)` times a remainder of the residual norm. -/
theorem peel_split_prime (π : GaussianInt) (p : ℕ) (hπ : Prime π) (hnp : gNorm π = p)
    (hp : 0 < p) :
    ∀ (e : ℕ) (w : GaussianInt) (m : ℕ), gNorm w = p ^ e * m →
    ∃ c w', c ≤ e ∧ w = π ^ c * star π ^ (e - c) * w' ∧ gNorm w' = m := by
  intro e
  induction e with
  | zero =>
    intro w m hw
    exact ⟨0, w, le_rfl, by simp, by simpa using hw⟩
  | succ e ih =>
    intro w m hw
    have hdvd : π ∣ ((gNorm w : ℕ) : GaussianInt) := by
      have h1 : (p : GaussianInt) ∣ ((gNorm w : ℕ) : GaussianInt) := by
        have : (p : ℕ) ∣ gNorm w := ⟨p ^ e * m, by rw [hw, pow_succ]; ring⟩
        exact_mod_cast Nat.cast_dvd_cast (α := GaussianInt) this
      refine dvd_trans ?_ h1
      have h2 : ((p : ℕ) : GaussianInt) = π * star π := by
        have h3 : ((gNorm π : ℕ) : GaussianInt) = π * star π := by
          have h4 : ((gNorm π : ℕ) : ℤ) = π.norm :=
            Int.natAbs_of_nonneg (Zsqrtd.norm_nonneg (by norm_num) π)
          calc ((gNorm π : ℕ) : GaussianInt) = (((gNorm π : ℕ) : ℤ) : GaussianInt) :=
                (Int.cast_natCast _).symm
          _ = ((π.norm : ℤ) : GaussianInt) := by rw [h4]
          _ = π * star π := Zsqrtd.norm_eq_mul_conj π
        rw [← hnp]
        exact h3
      exact ⟨star π, h2⟩
    rcases prime_dvd_or_star_dvd π w hπ hdvd with h | h
    · obtain ⟨w₁, hw₁⟩ := h
      have hn1 : p * gNorm w₁ = p * (p ^ e * m) := by
        calc p * gNorm w₁ = gNorm π * gNorm w₁ := by rw [hnp]
        _ = gNorm w := by rw [← gNorm_mul, ← hw₁]
        _ = p ^ (e + 1) * m := hw
        _ = p * (p ^ e * m) := by ring
      obtain ⟨c, w', hc, hfac, hnw'⟩ := ih w₁ m (Nat.eq_of_mul_eq_mul_left hp hn1)
      refine ⟨c + 1, w', by omega, ?_, hnw'⟩
      rw [hw₁, hfac]
      have hce : e + 1 - (c + 1) = e - c := by omega
      rw [hce, pow_succ]
      ring
    · obtain ⟨w₁, hw₁⟩ := h
      have hnsπ : gNorm (star π) = p := by rw [gNorm_star, hnp]
      have hn1 : p * gNorm w₁ = p * (p ^ e * m) := by
        calc p * gNorm w₁ = gNorm (star π) * gNorm w₁ := by rw [hnsπ]
        _ = gNorm w := by rw [← gNorm_mul, ← hw₁]
        _ = p ^ (e + 1) * m := hw
        _ = p * (p ^ e * m) := by ring
      obtain ⟨c, w', hc, hfac, hnw'⟩ := ih w₁ m (Nat.eq_of_mul_eq_mul_left hp hn1)
      refine ⟨c, w', by omega, ?_, hnw'⟩
      rw [hw₁, hfac]
      have hce : e + 1 - c = (e - c) + 1 := by omega
      rw [hce, pow_succ]
      ring

/-- An inert prime (`q ≡ 3 mod 4`) dividing the norm divides the Gaussian
integer itself. -/
theorem inert_dvd_self (q : ℕ) (hq : Nat.Prime q) (h43 : q % 4 = 3) (w : GaussianInt)
    (h : q ∣ gNorm w) : (q : GaussianInt) ∣ w := by
  haveI : Fact (Nat.Prime q) := ⟨hq⟩
  have hqP : Prime ((q : ℕ) : GaussianInt) :=
    (GaussianInt.prime_iff_mod_four_eq_three_of_nat_prime q).mpr h43
  have hdvd : ((q : ℕ) : GaussianInt) ∣ ((gNorm w : ℕ) : GaussianInt) :=
    Nat.cast_dvd_cast h
  rcases prime_dvd_or_star_dvd _ w hqP hdvd with h2 | h2
  · exact h2
  · rwa [star_natCast] at h2

/-- Peeling an inert prime appearing to an even power in the norm. -/
theorem peel_inert (q : ℕ) (hq : Nat.Prime q) (h43 : q % 4 = 3) :
    ∀ (k : ℕ) (w : GaussianInt) (m : ℕ), gNorm w = q ^ (2 * k) * m →
    ∃ w', w = (q : GaussianInt) ^ k * w' ∧ gNorm w' = m := by
  intro k
  induction k with
  | zero => exact fun w m hw => ⟨w, by simp, by simpa using hw⟩
  | succ k ih =>
    intro w m hw
    have hdvd : q ∣ gNorm w := by
      rw [hw]
      exact Dvd.dvd.mul_right (dvd_pow_self q (by omega : 2 * (k + 1) ≠ 0)) m
    obtain ⟨w₁, hw₁⟩ := inert_dvd_self q hq h43 w hdvd
    have hq2 : gNorm w = q * q * gNorm w₁ := by
      rw [hw₁, gNorm_mul, gNorm_natCast]
    have hn1 : q * q * gNorm w₁ = q * q * (q ^ (2 * k) * m) := by
      rw [← hq2, hw]
      have h2 : 2 * (k + 1) = 2 * k + 2 := by ring
      rw [h2, pow_succ, pow_succ]
      ring
    have hcancel : gNorm w₁ = q ^ (2 * k) * m :=
      Nat.eq_of_mul_eq_mul_left (Nat.mul_pos hq.pos hq.pos) hn1
    obtain ⟨w', hfac, hnw'⟩ := ih w₁ m hcancel
    refine ⟨w', ?_, hnw'⟩
    rw [hw₁, hfac, pow_succ]
    ring

/-- An inert prime divides a Gaussian norm to an even power (given the
cofactor is coprime): the classical obstruction behind the parity check. -/
theorem inert_even_exponent (q : ℕ) (hq : Nat.Prime q) (h43 : q % 4 = 3) :
    ∀ (g : ℕ) (w : GaussianInt) (m : ℕ), ¬ q ∣ m → gNorm w = q ^ g * m → Even g := by
  intro g
  induction g using Nat.strong_induction_on with
  | _ g ih =>
    intro w m hm hw
    rcases Nat.lt_or_ge g 1 with h1 | h1
    · have : g = 0 := by omega
      subst this
      exact even_zero
    · have hdvd : q ∣ gNorm w := by
        rw [hw]
        exact Dvd.dvd.mul_right (dvd_pow_self q (by omega)) m
      obtain ⟨w₁, hw₁⟩ := inert_dvd_self q hq h43 w hdvd
      have hq2 : gNorm w = q * q * gNorm w₁ := by
        rw [hw₁, gNorm_mul, gNorm_natCast]
      rcases Nat.lt_or_ge g 2 with h2 | h2
      · exfalso
        have hg1 : g = 1 := by omega
        subst hg1
        rw [pow_one] at hw
        have hqm : q * m = q * (q * gNorm w₁) := by
          have := hw.symm.trans hq2
          have hq0 : 0 < q := hq.pos
          calc q * m = q * q * gNorm w₁ := this
          _ = q * (q * gNorm w₁) := by ring
        have : m = q * gNorm w₁ := Nat.eq_of_mul_eq_mul_left hq.pos hqm
        exact hm ⟨gNorm w₁, this⟩
      · have hsub : gNorm w₁ = q ^ (g - 2) * m := by
          have heq : q * q * gNorm w₁ = q * q * (q ^ (g - 2) * m) := by
            rw [← hq2, hw]
            have hg2 : g = (g - 2) + 2 := by omega
            calc q ^ g * m = q ^ ((g - 2) + 2) * m := by rw [← hg2]
            _ = q * q * (q ^ (g - 2) * m) := by rw [pow_add]; ring
          exact Nat.eq_of_mul_eq_mul_left (Nat.mul_pos hq.pos hq.pos) heq
        obtain ⟨t, ht⟩ := ih (g - 2) (by omega) w₁ m hm hsub
        exact ⟨t + 1, by omega⟩

/-- Peeling the ramified prime `2` via `1 + i`. -/
theorem peel_two :
    ∀ (a : ℕ) (w : GaussianInt) (m : ℕ), gNorm w = 2 ^ a * m →
    ∃ w', w = (⟨1, 1⟩ : GaussianInt) ^ a * w' ∧ gNorm w' = m := by
  have honeI : gNorm (⟨1, 1⟩ : GaussianInt) = 2 := by
    norm_num [gNorm, Zsqrtd.norm_def]
  have hprime : Prime (⟨1, 1⟩ : GaussianInt) :=
    prime_of_gNorm_prime _ (by rw [honeI]; norm_num)
  intro a
  induction a with
  | zero => exact fun w m hw => ⟨w, by simp, by simpa using hw⟩
  | succ a ih =>
    intro w m hw
    have hdvd2 : 2 ∣ gNorm w := ⟨2 ^ a * m, by rw [hw, pow_succ]; ring⟩
    have hdvd : (⟨1, 1⟩ : GaussianInt) ∣ ((gNorm w : ℕ) : GaussianInt) := by
      have h2 : ((2 : ℕ) : GaussianInt) = ⟨1, 1⟩ * ⟨1, -1⟩ := by
        refine Zsqrtd.ext ?_ ?_ <;> simp [Zsqrtd.mul_re, Zsqrtd.mul_im]
      refine dvd_trans ⟨⟨1, -1⟩, h2⟩ (Nat.cast_dvd_cast hdvd2)
    have hstep : (⟨1, 1⟩ : GaussianInt) ∣ w := by
      rcases prime_dvd_or_star_dvd _ w hprime hdvd with h | h
      · exact h
      · have hs : star (⟨1, 1⟩ : GaussianInt) = ⟨1, -1⟩ := Zsqrtd.star_mk 1 1
        rw [hs] at h
        have hassoc : (⟨1, 1⟩ : GaussianInt) ∣ ⟨1, -1⟩ := by
          refine ⟨⟨0, -1⟩, ?_⟩
          refine Zsqrtd.ext ?_ ?_ <;> simp [Zsqrtd.mul_re, Zsqrtd.mul_im]
        exact hassoc.trans h
    obtain ⟨w₁, hw₁⟩ := hstep
    have hq2 : gNorm w = 2 * gNorm w₁ := by
      rw [hw₁, gNorm_mul, honeI]
    have hn1 : 2 * gNorm w₁ = 2 * (2 ^ a * m) := by
      rw [← hq2, hw, pow_succ]
      ring
    obtain ⟨w', hfac, hnw'⟩ := ih w₁ m (Nat.eq_of_mul_eq_mul_left (by norm_num) hn1)
    refine ⟨w', ?_, hnw'⟩
    rw [hw₁, hfac, pow_succ]
    ring

/-- The four units of the Gaussian integers. -/
theorem gauss_isUnit_cases (u : GaussianInt) (hu : IsUnit u) :
    u = 1 ∨ u = -1 ∨ u = ⟨0, 1⟩ ∨ u = ⟨0, -1⟩ := by
  have hn : u.norm = 1 := (Zsqrtd.norm_eq_one_iff' (by norm_num) u).mpr hu
  obtain ⟨a, b⟩ := u
  rw [Zsqrtd.norm_def] at hn
  have hab : a * a + b * b = 1 := by linarith
  have ha2 : a * a ≤ 1 := by nlinarith [mul_self_nonneg b]
  have hb2 : b * b ≤ 1 := by nlinarith [mul_self_nonneg a]
  have ha : -1 ≤ a ∧ a ≤ 1 := by constructor <;> nlinarith
  have hb : -1 ≤ b ∧ b ≤ 1 := by constructor <;> nlinarith
  obtain ⟨ha1, ha2'⟩ := ha
  obtain ⟨hb1, hb2'⟩ := hb
  interval_cases a <;> interval_cases b <;>
    simp_all [Zsqrtd.ext_iff, Zsqrtd.one_re, Zsqrtd.one_im] <;> omega

/-- Multiplying by a unit preserves the unordered pair of absolute
components. -/
theorem unit_mul_natAbs (w u : GaussianInt) (hu : IsUnit u) :
    ((w * u).re.natAbs = w.re.natAbs ∧ (w * u).im.natAbs = w.im.natAbs) ∨
    ((w * u).re.natAbs = w.im.natAbs ∧ (w * u).im.natAbs = w.re.natAbs) := by
  rcases gauss_isUnit_cases u hu with rfl | rfl | rfl | rfl
  · left
    simp
  · left
    constructor <;> simp [Int.natAbs_neg]
  · right
    constructor <;> simp [Zsqrtd.mul_re, Zsqrtd.mul_im, Int.natAbs_neg]
  · right
    constructor <;> simp [Zsqrtd.mul_re, Zsqrtd.mul_im, Int.natAbs_neg]

/-- A Gaussian integer of norm `1` is a unit. -/
theorem isUnit_of_gNorm_one (w : GaussianInt) (h : gNorm w = 1) : IsUnit w :=
  Zsqrtd.norm_eq_one_iff.mp h

/-- `toGauss` is multiplicative for the embedded Gaussian product. -/
theorem toGauss_gmul (u v : complexint) : toGauss (gmul u v) = toGauss u * toGauss v := by
  obtain ⟨a, b⟩ := u
  obtain ⟨c, e⟩ := v
  refine Zsqrtd.ext ?_ ?_ <;>
    simp [toGauss, gmul, cmul, Zsqrtd.mul_re, Zsqrtd.mul_im] <;> ring

/-- `toGauss` sends the embedded power to a Gaussian power. -/
theorem toGauss_gpow (u : complexint) (k : ℕ) : toGauss (gpow u k) = toGauss u ^ k := by
  induction k with
  | zero =>
    simp [gpow, toGauss]
    refine Zsqrtd.ext ?_ ?_ <;> simp
  | succ k ih =>
    rw [gpow, toGauss_gmul, ih, pow_succ]

/-- The embedded solution extraction matches the Gaussian components. -/
theorem toGauss_re (u : complexint) : (toGauss u).re = u.real := rfl

/-- The embedded solution extraction matches the Gaussian components. -/
theorem toGauss_im (u : complexint) : (toGauss u).im = u.imag := rfl

/-- `prodFS` over an append. -/
theorem prodFS_append (l₁ l₂ : List (ℕ × ℕ)) :
    prodFS (l₁ ++ l₂) = prodFS l₁ * prodFS l₂ := by
  rw [prodFS, prodFS, prodFS, List.map_append, List.prod_append]

/-- `prodFS` over a cons. -/
theorem prodFS_cons (pk : ℕ × ℕ) (l : List (ℕ × ℕ)) :
    prodFS (pk :: l) = pk.1 ^ pk.2 * prodFS l := by
  rw [prodFS, prodFS, List.map_cons, List.prod_cons]

/-- A prime dividing none of the (prime) keys does not divide `prodFS`. -/
theorem prime_not_dvd_prodFS (q : ℕ) (hq : Nat.Prime q) (l : List (ℕ × ℕ))
    (h : ∀ pk ∈ l, Nat.Prime pk.1 ∧ pk.1 ≠ q) : ¬ q ∣ prodFS l := by
  induction l with
  | nil =>
    rw [prodFS]
    simpa using hq.ne_one
  | cons pk rest ih =>
    rw [prodFS_cons]
    intro hdvd
    rcases hq.dvd_mul.mp hdvd with h1 | h1
    · have hp := h pk (List.mem_cons_self pk rest)
      have h2 := hq.dvd_of_dvd_pow h1
      exact hp.2 ((Nat.prime_dvd_prime_iff_eq hq hp.1).mp h2).symm
    · exact ih (fun pk hm => h pk (List.mem_cons_of_mem _ hm)) h1

/-- Full specification of the trial-division loop: with enough fuel and no
divisors below `d`, it produces a factorization: product `n`, all keys at
least `d`, and keys strictly increasing. -/
theorem factorintAux_full : ∀ (fuel d n : ℕ), 2 ≤ d → 1 ≤ n →
    (∀ k, 2 ≤ k → k < d → ¬ k ∣ n) → n + 1 ≤ fuel + d →
    prodFS (factorintAux fuel d n) = n ∧
    (∀ pk ∈ factorintAux fuel d n, d ≤ pk.1) ∧
    ((factorintAux fuel d n).map Prod.fst).Pairwise (· < ·) := by
  intro fuel
  induction fuel with
  | zero =>
    intro d n hd hn hsmall hfuel
    have hn1 : n = 1 := by
      by_contra hne
      have hn2 : 2 ≤ n := by omega
      have hpf := Nat.minFac_prime (by omega : n ≠ 1)
      have h1 := Nat.minFac_dvd n
      have h2 : n.minFac ≤ n := Nat.le_of_dvd (by omega) h1
      exact hsmall n.minFac hpf.two_le (by omega) h1
    rw [factorintAux]
    refine ⟨by rw [prodFS]; simpa using hn1.symm, by simp, by simp⟩
  | succ fuel ih =>
    intro d n hd hn hsmall hfuel
    rw [factorintAux]
    by_cases hn1 : n ≤ 1
    · rw [if_pos hn1]
      have : n = 1 := by omega
      refine ⟨by rw [prodFS]; simpa using this.symm, by simp, by simp⟩
    · rw [if_neg hn1]
      by_cases hmod : n % d = 0
      · rw [if_pos hmod]
        have hdvd : d ∣ n := Nat.dvd_of_mod_eq_zero hmod
        obtain ⟨hnd, hprod⟩ := multiplicityAux_spec n d n hd (by omega) le_rfl
        have hepos : 0 < (multiplicityAux n d n).1 := by
          by_contra he
          have he0 : (multiplicityAux n d n).1 = 0 := by omega
          rw [he0, pow_zero, mul_one] at hprod
          rw [hprod] at hnd
          exact hnd hdvd
        have hn'pos : 1 ≤ (multiplicityAux n d n).2 := by
          by_contra h0
          have : (multiplicityAux n d n).2 = 0 := by omega
          rw [this, zero_mul] at hprod
          omega
        have hn'lt : (multiplicityAux n d n).2 < n := by
          have h1 : (multiplicityAux n d n).2 * d ≤
              (multiplicityAux n d n).2 * d ^ (multiplicityAux n d n).1 := by
            apply Nat.mul_le_mul_left
            calc d = d ^ 1 := (pow_one d).symm
            _ ≤ d ^ (multiplicityAux n d n).1 :=
                Nat.pow_le_pow_right (by omega) (by omega)
          have h2 : (multiplicityAux n d n).2 * d ≤ n := by omega
          nlinarith
        have hsmall' : ∀ k, 2 ≤ k → k < d + 1 → ¬ k ∣ (multiplicityAux n d n).2 := by
          intro k hk2 hkd hkdvd
          rcases Nat.lt_or_ge k d with hlt | hge
          · exact hsmall k hk2 hlt
              (hkdvd.trans ⟨d ^ (multiplicityAux n d n).1, hprod.symm⟩)
          · have : k = d := by omega
            subst this
            exact hnd hkdvd
        obtain ⟨ihp, ihge, ihsort⟩ := ih (d + 1) (multiplicityAux n d n).2 (by omega)
          hn'pos hsmall' (by omega)
        refine ⟨?_, ?_, ?_⟩
        · rw [prodFS_cons]
          show d ^ (multiplicityAux n d n).1 * prodFS (factorintAux fuel (d + 1) _) = n
          rw [ihp]
          rw [Nat.mul_comm]
          exact hprod
        · intro pk hm
          rcases List.mem_cons.mp hm with rfl | hm2
          · exact le_rfl
          · exact le_trans (by omega) (ihge pk hm2)
        · rw [List.map_cons]
          refine List.Pairwise.cons ?_ ihsort
          intro b hb
          obtain ⟨pk, hpk, hpkb⟩ := List.mem_map.mp hb
          have := ihge pk hpk
          omega
      · rw [if_neg hmod]
        have hsm : ∀ k, 2 ≤ k → k < d + 1 → ¬ k ∣ n := by
          intro k hk2 hkd hkdvd
          rcases Nat.lt_or_ge k d with hlt | hge
          · exact hsmall k hk2 hlt hkdvd
          · have hkd2 : k = d := by omega
            subst hkd2
            exact hmod (Nat.mod_eq_zero_of_dvd hkdvd)
        obtain ⟨ih1, ih2, ih3⟩ := ih (d + 1) n (by omega) (by omega) hsm (by omega)
        exact ⟨ih1, fun pk hm => le_trans (by omega) (ih2 pk hm), ih3⟩

/-- The factorization oracle model fully factors `n ≥ 1`, with strictly
increasing prime keys. -/
theorem factorint_spec (n : ℕ) (hn : 1 ≤ n) :
    prodFS (factorint n) = n ∧ ((factorint n).map Prod.fst).Pairwise (· < ·) := by
  obtain ⟨h1, -, h3⟩ :=
    factorintAux_full (n + 2) 2 n le_rfl hn (fun k hk2 hk _ => by omega) (by omega)
  exact ⟨h1, h3⟩

/-- Master split along the primes `≡ 1 (mod 4)`: any Gaussian integer whose
norm is `prodFS L * m` factors as a `splitGP` product times a remainder of
norm `m`. -/
theorem master_split (π : ℕ → GaussianInt) :
    ∀ (L : List (ℕ × ℕ)) (w : GaussianInt) (m : ℕ),
    (∀ pk ∈ L, 0 < pk.1 ∧ Prime (π pk.1) ∧ gNorm (π pk.1) = pk.1) →
    gNorm w = prodFS L * m →
    ∃ cs w', cs.length = L.length ∧ List.Forall₂ (· ≤ ·) cs (L.map Prod.snd) ∧
      w = splitGP π L cs * w' ∧ gNorm w' = m := by
  intro L
  induction L with
  | nil =>
    intro w m hL hw
    refine ⟨[], w, rfl, List.Forall₂.nil, by simp [splitGP], ?_⟩
    simpa [prodFS] using hw
  | cons pk rest ih =>
    intro w m hL hw
    obtain ⟨hp, hπp, hπn⟩ := hL pk (List.mem_cons_self pk rest)
    have hw' : gNorm w = pk.1 ^ pk.2 * (prodFS rest * m) := by
      rw [hw, prodFS_cons]
      ring
    obtain ⟨c, w₁, hc, hfac, hn1⟩ := peel_split_prime (π pk.1) pk.1 hπp hπn hp pk.2 w _ hw'
    obtain ⟨cs, w', hlen, hforall, hfac2, hn2⟩ :=
      ih w₁ m (fun pk hm => hL pk (List.mem_cons_of_mem _ hm)) hn1
    refine ⟨c :: cs, w', by simp [hlen], ?_, ?_, hn2⟩
    · rw [List.map_cons]
      exact List.Forall₂.cons hc hforall
    · rw [hfac, hfac2, splitGP]
      ring

/-- Peeling an entire list of inert primes with even exponents. -/
theorem peel_inert_list :
    ∀ (L : List (ℕ × ℕ)) (w : GaussianInt) (m : ℕ),
    (∀ pk ∈ L, Nat.Prime pk.1 ∧ pk.1 % 4 = 3 ∧ Even pk.2) →
    gNorm w = prodFS L * m →
    ∃ w', w = (((L.map (fun pk => pk.1 ^ (pk.2 / 2))).prod : ℕ) : GaussianInt) * w' ∧
      gNorm w' = m := by
  intro L
  induction L with
  | nil =>
    intro w m hL hw
    refine ⟨w, by simp, ?_⟩
    simpa [prodFS] using hw
  | cons pk rest ih =>
    intro w m hL hw
    obtain ⟨hq, h43, he⟩ := hL pk (List.mem_cons_self pk rest)
    have h2e : 2 * (pk.2 / 2) = pk.2 := by
      obtain ⟨t, ht⟩ := he
      omega
    have hw' : gNorm w = pk.1 ^ (2 * (pk.2 / 2)) * (prodFS rest * m) := by
      rw [hw, prodFS_cons, h2e]
      ring
    obtain ⟨w₁, hfac, hn1⟩ := peel_inert pk.1 hq h43 (pk.2 / 2) w _ hw'
    obtain ⟨w', hfac2, hn2⟩ := ih w₁ m (fun pk hm => hL pk (List.mem_cons_of_mem _ hm)) hn1
    refine ⟨w', ?_, hn2⟩
    rw [hfac, hfac2, List.map_cons, List.prod_cons]
    push_cast
    ring

/-- Conjugating a `splitGP` product complements every split choice. -/
theorem star_splitGP (π : ℕ → GaussianInt) :
    ∀ (L : List (ℕ × ℕ)) (cs : List ℕ), List.Forall₂ (· ≤ ·) cs (L.map Prod.snd) →
    star (splitGP π L cs) = splitGP π L (List.zipWith (fun pk c => pk.2 - c) L cs) := by
  intro L
  induction L with
  | nil =>
    intro cs h
    have : cs = [] := by
      cases h
      rfl
    subst this
    simp [splitGP]
  | cons pk rest ih =>
    intro cs h
    rw [List.map_cons] at h
    cases h with
    | cons hc htail =>
      rename_i c cs'
      rw [List.zipWith_cons_cons, splitGP, splitGP, star_mul, star_mul, star_pow, star_pow,
        star_star, ih cs' htail]
      have hsub : pk.2 - (pk.2 - c) = c := by omega
      rw [hsub]
      ring

/-- `lookup` misses keys not present. -/
theorem lookup_eq_none_of_not_mem {α : Type} :
    ∀ (l : List (ℕ × α)) (a : ℕ), a ∉ l.map Prod.fst → List.lookup a l = none := by
  intro l
  induction l with
  | nil => intro a h; rfl
  | cons pk rest ih =>
    intro a h
    obtain ⟨k, v⟩ := pk
    rw [List.map_cons] at h
    have hak : (a == k) = false := by
      simp only [beq_eq_false_iff_ne, ne_eq]
      intro hc
      exact h (by rw [hc]; exact List.mem_cons_self k _)
    rw [List.lookup, hak]
    exact ih a (fun hm => h (List.mem_cons_of_mem _ hm))

/-- `lookup` on a list with distinct keys finds a present binding. -/
theorem lookup_of_mem_nodup {α : Type} :
    ∀ (l : List (ℕ × α)) (a : ℕ) (v : α), (l.map Prod.fst).Pairwise (· ≠ ·) →
    (a, v) ∈ l → List.lookup a l = some v := by
  intro l
  induction l with
  | nil => intro a v _ h; simp at h
  | cons pk rest ih =>
    intro a v hnodup hmem
    obtain ⟨k, u⟩ := pk
    rw [List.map_cons] at hnodup
    rcases List.mem_cons.mp hmem with heq | hm
    · rw [Prod.mk.injEq] at heq
      obtain ⟨rfl, rfl⟩ := heq
      rw [List.lookup]
      simp
    · have hka : a ≠ k := by
        intro hc
        subst hc
        have h1 := (List.pairwise_cons.mp hnodup).1
        exact h1 a (List.mem_map.mpr ⟨(a, v), hm, rfl⟩) rfl
      have hbeq : (a == k) = false := by
        simp only [beq_eq_false_iff_ne, ne_eq]
        exact hka
      rw [List.lookup, hbeq]
      exact ih a v (List.pairwise_cons.mp hnodup).2 hm

/-- A sum of two squares is never `3 (mod 4)`. -/
theorem sq_add_sq_mod_four (x y : ℕ) : (x * x + y * y) % 4 ≠ 3 := by
  have hxx : x * x % 4 = x % 4 * (x % 4) % 4 := by rw [Nat.mul_mod]
  have hyy : y * y % 4 = y % 4 * (y % 4) % 4 := by rw [Nat.mul_mod]
  have hx4 : x % 4 = 0 ∨ x % 4 = 1 ∨ x % 4 = 2 ∨ x % 4 = 3 := by omega
  have hy4 : y % 4 = 0 ∨ y % 4 = 1 ∨ y % 4 = 2 ∨ y % 4 = 3 := by omega
  have hsum : (x * x + y * y) % 4 = (x * x % 4 + y * y % 4) % 4 := by rw [Nat.add_mod]
  rcases hx4 with h | h | h | h <;> rw [h] at hxx <;> norm_num at hxx <;>
    rcases hy4 with h2 | h2 | h2 | h2 <;> rw [h2] at hyy <;> norm_num at hyy <;> omega

/-- `gNorm` on a Gaussian integer built from naturals. -/
theorem gNorm_mk (x y : ℕ) : gNorm ⟨(x : ℤ), (y : ℤ)⟩ = x * x + y * y := by
  have h := gNorm_eq ⟨(x : ℤ), (y : ℤ)⟩
  have h2 : ((gNorm (⟨(x : ℤ), (y : ℤ)⟩ : GaussianInt) : ℕ) : ℤ)
      = ((x * x + y * y : ℕ) : ℤ) := by
    rw [h]
    push_cast
    ring
  exact_mod_cast h2

/-- The absolute parts of a Gaussian integer recover its norm. -/
theorem gNorm_natAbs (w : GaussianInt) :
    w.re.natAbs * w.re.natAbs + w.im.natAbs * w.im.natAbs = gNorm w := by
  have h := gNorm_eq w
  have h2 : ((w.re.natAbs * w.re.natAbs + w.im.natAbs * w.im.natAbs : ℕ) : ℤ)
      = ((gNorm w : ℕ) : ℤ) := by
    rw [Nat.cast_add, Int.natAbs_mul_self, Int.natAbs_mul_self, h]
  exact_mod_cast h2

/-- `gNorm` of a power. -/
theorem gNorm_pow (w : GaussianInt) (k : ℕ) : gNorm (w ^ k) = gNorm w ^ k := by
  induction k with
  | zero => simp [gNorm]
  | succ k ih => rw [pow_succ, gNorm_mul, ih, pow_succ]

/-- The norm cast identity `N(w) = w * conj w` inside the Gaussian
integers. -/
theorem gNorm_cast_mul_star (w : GaussianInt) :
    ((gNorm w : ℕ) : GaussianInt) = w * star w := by
  have h1 : ((gNorm w : ℕ) : ℤ) = w.norm :=
    Int.natAbs_of_nonneg (Zsqrtd.norm_nonneg (by norm_num) w)
  calc ((gNorm w : ℕ) : GaussianInt) = (((gNorm w : ℕ) : ℤ) : GaussianInt) :=
        (Int.cast_natCast _).symm
  _ = ((w.norm : ℤ) : GaussianInt) := by rw [h1]
  _ = w * star w := Zsqrtd.norm_eq_mul_conj w

/-- A prime has at most one representation as an ordered sum of two
squares. -/
theorem sum_two_squares_unique (p : ℕ) (hp : Nat.Prime p)
    (x y a b : ℕ) (hxy : x * x + y * y = p) (hab : a * a + b * b = p)
    (hx : x ≤ y) (ha : a ≤ b) : a = x ∧ b = y := by
  have hnπ : gNorm ⟨(x : ℤ), (y : ℤ)⟩ = p := by rw [gNorm_mk, hxy]
  have hnw : gNorm ⟨(a : ℤ), (b : ℤ)⟩ = p := by rw [gNorm_mk, hab]
  have hπP : Prime (⟨(x : ℤ), (y : ℤ)⟩ : GaussianInt) :=
    prime_of_gNorm_prime _ (by rw [hnπ]; exact hp)
  have hdvd : (⟨(x : ℤ), (y : ℤ)⟩ : GaussianInt) ∣
      ((gNorm (⟨(a : ℤ), (b : ℤ)⟩ : GaussianInt) : ℕ) : GaussianInt) := by
    rw [hnw, ← hnπ, gNorm_cast_mul_star]
    exact dvd_mul_right _ _
  have habs : ((⟨(a : ℤ), (b : ℤ)⟩ : GaussianInt).re.natAbs =
        (⟨(x : ℤ), (y : ℤ)⟩ : GaussianInt).re.natAbs ∧
      (⟨(a : ℤ), (b : ℤ)⟩ : GaussianInt).im.natAbs =
        (⟨(x : ℤ), (y : ℤ)⟩ : GaussianInt).im.natAbs) ∨
      ((⟨(a : ℤ), (b : ℤ)⟩ : GaussianInt).re.natAbs =
        (⟨(x : ℤ), (y : ℤ)⟩ : GaussianInt).im.natAbs ∧
      (⟨(a : ℤ), (b : ℤ)⟩ : GaussianInt).im.natAbs =
        (⟨(x : ℤ), (y : ℤ)⟩ : GaussianInt).re.natAbs) := by
    rcases prime_dvd_or_star_dvd _ _ hπP hdvd with h | h
    · obtain ⟨t, ht⟩ := h
      have hnt : p * gNorm t = p * 1 := by
        rw [mul_one, ← hnπ, ← gNorm_mul, ← ht, hnw]
        exact hnπ.symm
      have hu : IsUnit t := isUnit_of_gNorm_one t (Nat.eq_of_mul_eq_mul_left hp.pos hnt)
      have h2 := unit_mul_natAbs (⟨(x : ℤ), (y : ℤ)⟩ : GaussianInt) t hu
      rw [← ht] at h2
      exact h2
    · obtain ⟨t, ht⟩ := h
      have hnsπ : gNorm (star (⟨(x : ℤ), (y : ℤ)⟩ : GaussianInt)) = p := by
        rw [gNorm_star, hnπ]
      have hnt : p * gNorm t = p * 1 := by
        rw [mul_one, ← hnsπ, ← gNorm_mul, ← ht, hnw]
        exact hnsπ.symm
      have hu : IsUnit t := isUnit_of_gNorm_one t (Nat.eq_of_mul_eq_mul_left hp.pos hnt)
      have h2 := unit_mul_natAbs (star (⟨(x : ℤ), (y : ℤ)⟩ : GaussianInt)) t hu
      rw [← ht] at h2
      have hsre : (star (⟨(x : ℤ), (y : ℤ)⟩ : GaussianInt)).re.natAbs =
          (⟨(x : ℤ), (y : ℤ)⟩ : GaussianInt).re.natAbs := by
        rw [Zsqrtd.star_re]
      have hsim : (star (⟨(x : ℤ), (y : ℤ)⟩ : GaussianInt)).im.natAbs =
          (⟨(x : ℤ), (y : ℤ)⟩ : GaussianInt).im.natAbs := by
        rw [Zsqrtd.star_im, Int.natAbs_neg]
      rw [hsre, hsim] at h2
      exact h2
  have hare : (⟨(a : ℤ), (b : ℤ)⟩ : GaussianInt).re.natAbs = a := Int.natAbs_ofNat a
  have haim : (⟨(a : ℤ), (b : ℤ)⟩ : GaussianInt).im.natAbs = b := Int.natAbs_ofNat b
  have hxre : (⟨(x : ℤ), (y : ℤ)⟩ : GaussianInt).re.natAbs = x := Int.natAbs_ofNat x
  have hxim : (⟨(x : ℤ), (y : ℤ)⟩ : GaussianInt).im.natAbs = y := Int.natAbs_ofNat y
  rw [hare, haim, hxre, hxim] at habs
  rcases habs with ⟨h1, h2⟩ | ⟨h1, h2⟩ <;> omega

/-- For a prime `≡ 1 (mod 4)`, a two-square representation has distinct
nonzero parts. -/
theorem rep_nontrivial (p : ℕ) (hp : Nat.Prime p) (h41 : p % 4 = 1)
    (x y : ℕ) (hxy : x * x + y * y = p) : x ≠ 0 ∧ x ≠ y := by
  constructor
  · rintro rfl
    rw [Nat.zero_mul, Nat.zero_add] at hxy
    rcases hp.eq_one_or_self_of_dvd y ⟨y, hxy.symm⟩ with h | h
    · rw [h] at hxy
      have := hp.one_lt
      omega
    · rw [h] at hxy
      have := hp.one_lt
      nlinarith
  · rintro rfl
    have h2 : 2 ∣ p := ⟨x * x, by omega⟩
    rcases hp.eq_one_or_self_of_dvd 2 h2 with h | h <;> omega

/-- Membership in the brute-force reference set. -/
theorem mem_brute_force (n : ℕ) (q : ℕ × ℕ) :
    q ∈ brute_force_twosquares n ↔ q.1 * q.1 + q.2 * q.2 = n ∧ q.1 ≤ q.2 := by
  rw [brute_force_twosquares, List.mem_toFinset, List.mem_filterMap]
  constructor
  · rintro ⟨x, hx, hfx⟩
    rw [List.mem_range] at hx
    dsimp only at hfx
    split at hfx
    · rename_i hcond
      obtain ⟨hyy, hxy⟩ := hcond
      have hq : q = (x, isqrt (n - x * x)) := (Option.some_injective _ hfx).symm
      subst hq
      have hxn : x * x ≤ n := by
        have h1 : x * x ≤ isqrt n * isqrt n := Nat.mul_le_mul (by omega) (by omega)
        have h2 := isqrt_le n
        omega
      refine ⟨?_, hxy⟩
      show x * x + isqrt (n - x * x) * isqrt (n - x * x) = n
      omega
    · exact absurd hfx (by simp)
  · rintro ⟨hsum, hle⟩
    refine ⟨q.1, ?_, ?_⟩
    · rw [List.mem_range]
      by_contra hgt
      push_neg at hgt
      have h1 : (isqrt n + 1) * (isqrt n + 1) ≤ q.1 * q.1 := Nat.mul_le_mul hgt hgt
      have h2 := lt_isqrt_succ n
      omega
    · dsimp only
      have hr : n - q.1 * q.1 = q.2 * q.2 := by omega
      rw [hr, isqrt_sq, if_pos ⟨rfl, hle⟩]

/-- Membership in the nontrivial brute-force reference set. -/
theorem mem_brute_force_nontrivial (n : ℕ) (q : ℕ × ℕ) :
    q ∈ brute_force_nontrivial n ↔
      (q.1 * q.1 + q.2 * q.2 = n ∧ q.1 ≤ q.2) ∧ q.1 ≠ 0 ∧ q.1 ≠ q.2 := by
  rw [brute_force_nontrivial, Finset.mem_filter, mem_brute_force]

/-- The brute-force set of an `n ≡ 3 (mod 4)` is empty. -/
theorem brute_force_three_mod_four (n : ℕ) (h : n % 4 = 3) :
    brute_force_twosquares n = ∅ := by
  rw [Finset.eq_empty_iff_forall_not_mem]
  intro q hq
  rw [mem_brute_force] at hq
  exact sq_add_sq_mod_four q.1 q.2 (by rw [hq.1, h])

/-- `prodFS` of the empty list. -/
theorem prodFS_nil : prodFS ([] : List (ℕ × ℕ)) = 1 := by simp [prodFS]

/-- Partition of a prime factorization into the power of `2`, the primes
`≡ 1 (mod 4)`, and the primes `≡ 3 (mod 4)`. -/
theorem prodFS_partition : ∀ (fs : List (ℕ × ℕ)),
    (∀ pk ∈ fs, Nat.Prime pk.1) → (fs.map Prod.fst).Pairwise (· ≠ ·) →
    prodFS fs = 2 ^ ((List.lookup 2 fs).getD 0) *
      prodFS (fs.filter (fun pk => pk.1 % 4 = 1)) *
      prodFS (fs.filter (fun pk => pk.1 % 4 = 3)) := by
  intro fs
  induction fs with
  | nil =>
    intro _ _
    simp [prodFS, List.lookup]
  | cons pk rest ih =>
    intro hpr hne
    obtain ⟨p, e⟩ := pk
    rw [List.map_cons, List.pairwise_cons] at hne
    have hprest : ∀ pk ∈ rest, Nat.Prime pk.1 :=
      fun pk hm => hpr pk (List.mem_cons_of_mem _ hm)
    have hih := ih hprest hne.2
    have hp := hpr (p, e) (List.mem_cons_self (p, e) rest)
    by_cases hp2 : p = 2
    · subst hp2
      have hlk : List.lookup 2 ((2, e) :: rest) = some e := by
        rw [List.lookup]
        simp
      have hlk2 : List.lookup 2 rest = none :=
        lookup_eq_none_of_not_mem rest 2 (fun hm => hne.1 2 hm rfl)
      have hf1 : ((2, e) :: rest).filter (fun pk => pk.1 % 4 = 1) =
          rest.filter (fun pk => pk.1 % 4 = 1) := by
        simp [List.filter_cons]
      have hf3 : ((2, e) :: rest).filter (fun pk => pk.1 % 4 = 3) =
          rest.filter (fun pk => pk.1 % 4 = 3) := by
        simp [List.filter_cons]
      rw [prodFS_cons, hlk, hf1, hf3, hih, hlk2]
      simp only [Option.getD_some, Option.getD_none, pow_zero, one_mul]
      ring
    · have hodd : p % 2 = 1 := by
        rcases hp.eq_two_or_odd with h | h
        · exact absurd h hp2
        · exact h
      have h14 : p % 4 = 1 ∨ p % 4 = 3 := by omega
      have hlk : List.lookup 2 ((p, e) :: rest) = List.lookup 2 rest := by
        have hb : (2 == p) = false := beq_eq_false_iff_ne.mpr (fun h => hp2 h.symm)
        rw [List.lookup, hb]
      rcases h14 with h1 | h3
      · have hf1 : ((p, e) :: rest).filter (fun pk => pk.1 % 4 = 1) =
            (p, e) :: rest.filter (fun pk => pk.1 % 4 = 1) := by
          simp [List.filter_cons, h1]
        have hf3 : ((p, e) :: rest).filter (fun pk => pk.1 % 4 = 3) =
            rest.filter (fun pk => pk.1 % 4 = 3) := by
          simp [List.filter_cons, h1]
        rw [prodFS_cons, hlk, hf1, hf3, prodFS_cons, hih]
        ring
      · have hf1 : ((p, e) :: rest).filter (fun pk => pk.1 % 4 = 1) =
            rest.filter (fun pk => pk.1 % 4 = 1) := by
          simp [List.filter_cons, h3]
        have hf3 : ((p, e) :: rest).filter (fun pk => pk.1 % 4 = 3) =
            (p, e) :: rest.filter (fun pk => pk.1 % 4 = 3) := by
          simp [List.filter_cons, h3]
        rw [prodFS_cons, hlk, hf1, hf3, prodFS_cons, hih]
        ring

/-- A factor list with even exponents is the square of the half-exponent
product. -/
theorem prodFS_even_sq : ∀ (L : List (ℕ × ℕ)), (∀ pk ∈ L, pk.2 % 2 = 0) →
    prodFS L = (L.map (fun pk => pk.1 ^ (pk.2 / 2))).prod *
      (L.map (fun pk => pk.1 ^ (pk.2 / 2))).prod := by
  intro L
  induction L with
  | nil =>
    intro _
    simp [prodFS]
  | cons pk rest ih =>
    intro h
    have he := h pk (List.mem_cons_self pk rest)
    rw [prodFS_cons, List.map_cons, List.prod_cons,
      ih (fun pk hm => h pk (List.mem_cons_of_mem _ hm))]
    have h2 : pk.1 ^ pk.2 = pk.1 ^ (pk.2 / 2) * pk.1 ^ (pk.2 / 2) := by
      rw [← pow_add]
      congr 1
      omega
    rw [h2]
    ring

/-- If some prime `≡ 3 (mod 4)` divides `n` to an odd power, `n` is not a
sum of two squares. -/
theorem no_rep_of_odd_inert (fs : List (ℕ × ℕ)) (q e : ℕ)
    (hpr : ∀ pk ∈ fs, Nat.Prime pk.1) (hne : (fs.map Prod.fst).Pairwise (· ≠ ·))
    (hmem : (q, e) ∈ fs) (h43 : q % 4 = 3) (hodd : e % 2 = 1)
    (x y : ℕ) (hxy : x * x + y * y = prodFS fs) : False := by
  have hq : Nat.Prime q := hpr (q, e) hmem
  obtain ⟨l₁, l₂, rfl⟩ := List.append_of_mem hmem
  rw [List.map_append, List.map_cons, List.pairwise_append] at hne
  obtain ⟨hpl1, hpl2, hcross⟩ := hne
  rw [List.pairwise_cons] at hpl2
  have hnd1 : ¬ q ∣ prodFS l₁ := by
    apply prime_not_dvd_prodFS q hq
    intro pk hm
    refine ⟨hpr pk (List.mem_append_left _ hm), ?_⟩
    exact hcross pk.1 (List.mem_map.mpr ⟨pk, hm, rfl⟩) q (List.mem_cons_self q _)
  have hnd2 : ¬ q ∣ prodFS l₂ := by
    apply prime_not_dvd_prodFS q hq
    intro pk hm
    refine ⟨hpr pk (List.mem_append_right _ (List.mem_cons_of_mem _ hm)), ?_⟩
    exact (hpl2.1 pk.1 (List.mem_map.mpr ⟨pk, hm, rfl⟩)).symm
  have hm0 : ¬ q ∣ prodFS l₁ * prodFS l₂ := by
    intro hdvd
    rcases (Nat.Prime.dvd_mul hq).mp hdvd with h | h
    · exact hnd1 h
    · exact hnd2 h
  have hw : gNorm ⟨(x : ℤ), (y : ℤ)⟩ = q ^ e * (prodFS l₁ * prodFS l₂) := by
    rw [gNorm_mk, hxy, prodFS_append, prodFS_cons]
    ring
  have heven := inert_even_exponent q hq h43 e _ _ hm0 hw
  rw [Nat.even_iff] at heven
  omega

/-- Absolute parts of a natural multiple of a Gaussian integer. -/
theorem natAbs_cast_mul (C : ℕ) (w : GaussianInt) :
    ((C : GaussianInt) * w).re.natAbs = C * w.re.natAbs ∧
    ((C : GaussianInt) * w).im.natAbs = C * w.im.natAbs := by
  constructor <;>
    simp [Zsqrtd.mul_re, Zsqrtd.mul_im, Int.natAbs_mul]

/-- A Gaussian integer of the form `K·(1+i)^a·u` with `u` a unit has equal
absolute parts or a zero part. -/
theorem trivial_shape (K a : ℕ) (u : GaussianInt) (hu : IsUnit u) (z : GaussianInt)
    (hz : z = (K : GaussianInt) * (⟨1, 1⟩ : GaussianInt) ^ a * u) :
    z.re.natAbs = z.im.natAbs ∨ z.re.natAbs = 0 ∨ z.im.natAbs = 0 := by
  have hiu : IsUnit (⟨0, 1⟩ : GaussianInt) := by
    refine isUnit_of_mul_eq_one _ ⟨0, -1⟩ ?_
    refine Zsqrtd.ext ?_ ?_ <;> simp [Zsqrtd.mul_re, Zsqrtd.mul_im]
  have h2 : (⟨1, 1⟩ : GaussianInt) ^ 2 = ((2 : ℕ) : GaussianInt) * ⟨0, 1⟩ := by
    refine Zsqrtd.ext ?_ ?_ <;>
      simp [pow_two, Zsqrtd.mul_re, Zsqrtd.mul_im]
  have hpow : (⟨1, 1⟩ : GaussianInt) ^ a =
      ((2 ^ (a / 2) : ℕ) : GaussianInt) * (⟨0, 1⟩ : GaussianInt) ^ (a / 2) *
        (⟨1, 1⟩ : GaussianInt) ^ (a % 2) := by
    have ha : a = 2 * (a / 2) + a % 2 := by omega
    calc (⟨1, 1⟩ : GaussianInt) ^ a
        = (⟨1, 1⟩ : GaussianInt) ^ (2 * (a / 2) + a % 2) := by rw [← ha]
    _ = ((⟨1, 1⟩ : GaussianInt) ^ 2) ^ (a / 2) * (⟨1, 1⟩ : GaussianInt) ^ (a % 2) := by
        rw [pow_add, pow_mul]
    _ = ((2 ^ (a / 2) : ℕ) : GaussianInt) * (⟨0, 1⟩ : GaussianInt) ^ (a / 2) *
        (⟨1, 1⟩ : GaussianInt) ^ (a % 2) := by
        rw [h2, mul_pow]
        push_cast
        ring
  have hz2 : z = ((K * 2 ^ (a / 2) : ℕ) : GaussianInt) * (⟨1, 1⟩ : GaussianInt) ^ (a % 2) *
      ((⟨0, 1⟩ : GaussianInt) ^ (a / 2) * u) := by
    rw [hz, hpow]
    push_cast
    ring
  have hvu : IsUnit ((⟨0, 1⟩ : GaussianInt) ^ (a / 2) * u) := (hiu.pow (a / 2)).mul hu
  have hr2 : a % 2 = 0 ∨ a % 2 = 1 := by omega
  rcases hr2 with h5 | h5
  · rw [h5, pow_zero, mul_one] at hz2
    rcases gauss_isUnit_cases _ hvu with h4 | h4 | h4 | h4 <;> rw [h4] at hz2 <;> rw [hz2]
    · right; right
      rw [(natAbs_cast_mul _ _).2]
      simp
    · right; right
      rw [(natAbs_cast_mul _ _).2]
      simp
    · right; left
      rw [(natAbs_cast_mul _ _).1]
      simp
    · right; left
      rw [(natAbs_cast_mul _ _).1]
      simp
  · rw [h5, pow_one, mul_assoc] at hz2
    rcases gauss_isUnit_cases _ hvu with h4 | h4 | h4 | h4 <;> rw [h4] at hz2 <;> rw [hz2] <;>
      left <;>
      rw [(natAbs_cast_mul _ _).1, (natAbs_cast_mul _ _).2] <;>
      norm_num [Zsqrtd.mul_re, Zsqrtd.mul_im]

/-- When the factorization has no prime `≡ 1 (mod 4)` and every prime
`≡ 3 (mod 4)` occurs to an even power, every representation is trivial. -/
theorem trivial_rep_of_no_split (fs : List (ℕ × ℕ))
    (hpr : ∀ pk ∈ fs, Nat.Prime pk.1) (hne : (fs.map Prod.fst).Pairwise (· ≠ ·))
    (hp1 : fs.filter (fun pk => pk.1 % 4 = 1) = [])
    (heven : ∀ pk ∈ fs.filter (fun pk => pk.1 % 4 = 3), pk.2 % 2 = 0)
    (x y : ℕ) (hxy : x * x + y * y = prodFS fs) : x = y ∨ x = 0 ∨ y = 0 := by
  have hpart := prodFS_partition fs hpr hne
  rw [hp1, prodFS_nil] at hpart
  have hp3fact : ∀ pk ∈ fs.filter (fun pk => pk.1 % 4 = 3),
      Nat.Prime pk.1 ∧ pk.1 % 4 = 3 ∧ Even pk.2 := by
    intro pk hm
    have hm2 := hm
    rw [List.mem_filter] at hm2
    refine ⟨hpr pk hm2.1, by simpa using hm2.2, ?_⟩
    rw [Nat.even_iff]
    exact heven pk hm
  have hw : gNorm ⟨(x : ℤ), (y : ℤ)⟩ =
      prodFS (fs.filter (fun pk => pk.1 % 4 = 3)) * 2 ^ ((List.lookup 2 fs).getD 0) := by
    rw [gNorm_mk, hxy, hpart]
    ring
  obtain ⟨w₂, hfac, hn2⟩ := peel_inert_list _ _ _ hp3fact hw
  obtain ⟨u, hfac2, hnu⟩ := peel_two ((List.lookup 2 fs).getD 0) w₂ 1
    (by rw [hn2, mul_one])
  have hu : IsUnit u := isUnit_of_gNorm_one u hnu
  have hz : (⟨(x : ℤ), (y : ℤ)⟩ : GaussianInt) =
      (((((fs.filter (fun pk => pk.1 % 4 = 3)).map (fun pk => pk.1 ^ (pk.2 / 2))).prod : ℕ))
          : GaussianInt) *
        (⟨1, 1⟩ : GaussianInt) ^ ((List.lookup 2 fs).getD 0) * u := by
    rw [hfac, hfac2]
    ring
  have hsh := trivial_shape _ _ u hu _ hz
  rw [show ((⟨(x : ℤ), (y : ℤ)⟩ : GaussianInt)).re.natAbs = x from Int.natAbs_ofNat x,
      show ((⟨(x : ℤ), (y : ℤ)⟩ : GaussianInt)).im.natAbs = y from Int.natAbs_ofNat y] at hsh
  exact hsh

/-- `allChoices K` enumerates exactly the boolean lists of length `K`. -/
theorem mem_allChoices : ∀ (K : ℕ) (bs : List Bool), bs ∈ allChoices K ↔ bs.length = K := by
  intro K
  induction K with
  | zero =>
    intro bs
    simp [allChoices, List.length_eq_zero]
  | succ K ih =>
    intro bs
    rw [allChoices, List.mem_flatMap]
    constructor
    · rintro ⟨cs, hcs, hbs⟩
      have hlen := (ih cs).mp hcs
      simp only [List.mem_cons, List.mem_singleton, List.not_mem_nil, or_false] at hbs
      rcases hbs with rfl | rfl <;> simp [hlen]
    · intro hlen
      cases bs with
      | nil => simp at hlen
      | cons b bs' =>
        refine ⟨bs', (ih bs').mpr (by simpa using hlen), ?_⟩
        cases b <;> simp

/-- The enumeration's accumulation is the base times the selected product. -/
theorem toGauss_applyChoices : ∀ (occs : List (complexint × complexint)) (bs : List Bool)
    (base : complexint),
    toGauss (applyChoices base occs bs) = toGauss base * gProd occs bs := by
  intro occs
  induction occs with
  | nil =>
    intro bs base
    simp [applyChoices, gProd]
  | cons occ occs ih =>
    intro bs base
    cases bs with
    | nil => simp [applyChoices, gProd]
    | cons b bs' =>
      simp only [applyChoices, gProd]
      rw [ih, toGauss_gmul]
      ring

/-- `gProd` over an append of matching lengths. -/
theorem gProd_append : ∀ (occs₁ : List (complexint × complexint)) (bs₁ : List Bool)
    (occs₂ : List (complexint × complexint)) (bs₂ : List Bool),
    bs₁.length = occs₁.length →
    gProd (occs₁ ++ occs₂) (bs₁ ++ bs₂) = gProd occs₁ bs₁ * gProd occs₂ bs₂ := by
  intro occs₁
  induction occs₁ with
  | nil =>
    intro bs₁ occs₂ bs₂ h
    rw [List.length_nil, List.length_eq_zero] at h
    subst h
    simp [gProd]
  | cons occ occs ih =>
    intro bs₁ occs₂ bs₂ h
    cases bs₁ with
    | nil => simp at h
    | cons b bs' =>
      simp only [List.cons_append, gProd, List.append_eq]
      rw [ih bs' occs₂ bs₂ (by simpa using h)]
      ring

/-- `gProd` over a replicated occurrence with all-conjugate choices. -/
theorem gProd_replicate_true (occ : complexint × complexint) :
    ∀ k, gProd (List.replicate k occ) (List.replicate k true) = toGauss occ.2 ^ k := by
  intro k
  induction k with
  | zero => simp [gProd]
  | succ k ih =>
    rw [List.replicate_succ, List.replicate_succ]
    simp only [gProd, if_true]
    rw [ih, pow_succ]
    ring

/-- `gProd` over a replicated occurrence with all-plain choices. -/
theorem gProd_replicate_false (occ : complexint × complexint) :
    ∀ k, gProd (List.replicate k occ) (List.replicate k false) = toGauss occ.1 ^ k := by
  intro k
  induction k with
  | zero => simp [gProd]
  | succ k ih =>
    rw [List.replicate_succ, List.replicate_succ]
    simp only [gProd, Bool.false_eq_true, if_false]
    rw [ih, pow_succ]
    ring

/-- The norm of a selected product is independent of the choices. -/
theorem gNorm_gProd : ∀ (occs : List (complexint × complexint)) (bs : List Bool),
    bs.length = occs.length →
    (∀ occ ∈ occs, gNorm (toGauss occ.2) = gNorm (toGauss occ.1)) →
    gNorm (gProd occs bs) = (occs.map (fun occ => gNorm (toGauss occ.1))).prod := by
  intro occs
  induction occs with
  | nil =>
    intro bs h _
    rw [List.length_nil, List.length_eq_zero] at h
    subst h
    simp [gProd, gNorm]
  | cons occ occs ih =>
    intro bs h hocc
    cases bs with
    | nil => simp at h
    | cons b bs' =>
      simp only [gProd, List.map_cons, List.prod_cons]
      rw [gNorm_mul, ih bs' (by simpa using h)
        (fun o hm => hocc o (List.mem_cons_of_mem _ hm))]
      cases b
      · simp
      · simp [hocc occ (List.mem_cons_self occ occs)]

/-- Mapped product over a `flatMap` of replicated occurrences. -/
theorem map_prod_flatMap_replicate (g : complexint × complexint → ℕ)
    (repOf : ℕ → complexint × complexint) :
    ∀ (L : List (ℕ × ℕ)),
    ((L.flatMap (fun pk => List.replicate pk.2 (repOf pk.1))).map g).prod
      = (L.map (fun pk => g (repOf pk.1) ^ pk.2)).prod := by
  intro L
  induction L with
  | nil => simp
  | cons pk rest ih =>
    rw [List.flatMap_cons, List.map_append, List.prod_append, List.map_cons,
      List.prod_cons, ih, List.map_replicate, List.prod_replicate]

/-- Every split-choice product is reached by some choice bitstring of the
enumeration. -/
theorem gProd_of_splitGP (repOf : ℕ → complexint × complexint) :
    ∀ (L : List (ℕ × ℕ)) (cs : List ℕ),
    (∀ pk ∈ L, toGauss (repOf pk.1).2 = star (toGauss (repOf pk.1).1)) →
    List.Forall₂ (· ≤ ·) cs (L.map Prod.snd) →
    ∃ bs : List Bool,
      bs.length = (L.flatMap (fun pk => List.replicate pk.2 (repOf pk.1))).length ∧
      gProd (L.flatMap (fun pk => List.replicate pk.2 (repOf pk.1))) bs
        = splitGP (fun p => toGauss (repOf p).1) L cs := by
  intro L
  induction L with
  | nil =>
    intro cs hrep hf
    have : cs = [] := by cases hf; rfl
    subst this
    exact ⟨[], by simp, by simp [splitGP, gProd]⟩
  | cons pk rest ih =>
    intro cs hrep hf
    rw [List.map_cons] at hf
    cases hf with
    | cons hc htail =>
      rename_i c cs'
      obtain ⟨bs', hlen', hprod'⟩ :=
        ih cs' (fun pk hm => hrep pk (List.mem_cons_of_mem _ hm)) htail
      refine ⟨(List.replicate c false ++ List.replicate (pk.2 - c) true) ++ bs', ?_, ?_⟩
      · rw [List.flatMap_cons, List.length_append, List.length_append, List.length_append,
          List.length_replicate, List.length_replicate, List.length_replicate, hlen']
        omega
      · rw [List.flatMap_cons]
        have hsplit : List.replicate pk.2 (repOf pk.1) =
            List.replicate c (repOf pk.1) ++ List.replicate (pk.2 - c) (repOf pk.1) := by
          rw [← List.replicate_add]
          congr 1
          omega
        rw [hsplit]
        rw [gProd_append _ _ _ _ (by simp), gProd_append _ _ _ _ (by simp)]
        rw [gProd_replicate_false, gProd_replicate_true, hprod', splitGP]
        rw [hrep pk (List.mem_cons_self pk rest)]

/-- The complemented choice list stays bounded by the exponents. -/
theorem forall₂_zipWith_sub : ∀ (L : List (ℕ × ℕ)) (cs : List ℕ),
    List.Forall₂ (· ≤ ·) cs (L.map Prod.snd) →
    List.Forall₂ (· ≤ ·) (List.zipWith (fun pk c => pk.2 - c) L cs) (L.map Prod.snd) := by
  intro L
  induction L with
  | nil =>
    intro cs h
    have : cs = [] := by cases h; rfl
    subst this
    simpa using List.Forall₂.nil
  | cons pk rest ih =>
    intro cs h
    rw [List.map_cons] at h ⊢
    cases h with
    | cons hc htail =>
      rename_i c cs'
      rw [List.zipWith_cons_cons]
      exact List.Forall₂.cons (by omega) (ih cs' htail)

/-- `addSol` in terms of the skip condition and the sorted key. -/
theorem addSol_eq (noTriv : Bool) (found : Finset (ℕ × ℕ)) (t : complexint) :
    addSol noTriv found t =
      if trivSkip noTriv t then found else insert (solKey t) found := by
  simp only [addSol, trivSkip, solKey]
  split_ifs <;> rfl

/-- Membership in the enumeration's folded result set. -/
theorem mem_foldl_addSol (noTriv : Bool) (F : List Bool → complexint) :
    ∀ (L : List (List Bool)) (init : Finset (ℕ × ℕ)) (q : ℕ × ℕ),
    (q ∈ L.foldl (fun fd bs => addSol noTriv fd (F bs)) init ↔
      q ∈ init ∨ ∃ bs ∈ L, ¬ trivSkip noTriv (F bs) ∧ q = solKey (F bs)) := by
  intro L
  induction L with
  | nil =>
    intro init q
    simp
  | cons b L ih =>
    intro init q
    rw [List.foldl_cons, ih, addSol_eq]
    by_cases h : trivSkip noTriv (F b)
    · rw [if_pos h]
      constructor
      · rintro (hq | ⟨bs, hbs, hc⟩)
        · exact Or.inl hq
        · exact Or.inr ⟨bs, List.mem_cons_of_mem _ hbs, hc⟩
      · rintro (hq | ⟨bs, hbs, hc⟩)
        · exact Or.inl hq
        · rcases List.mem_cons.mp hbs with rfl | hbs'
          · exact absurd h hc.1
          · exact Or.inr ⟨bs, hbs', hc⟩
    · rw [if_neg h, Finset.mem_insert]
      constructor
      · rintro ((hq | hq) | ⟨bs, hbs, hc⟩)
        · exact Or.inr ⟨b, List.mem_cons_self b L, h, hq⟩
        · exact Or.inl hq
        · exact Or.inr ⟨bs, List.mem_cons_of_mem _ hbs, hc⟩
      · rintro (hq | ⟨bs, hbs, hc⟩)
        · exact Or.inl (Or.inr hq)
        · rcases List.mem_cons.mp hbs with rfl | hbs'
          · exact Or.inl (Or.inl hc.2)
          · exact Or.inr ⟨bs, hbs', hc⟩

/-- `decomposeAll` on primes `≡ 1 (mod 4)` succeeds and returns, for each
key `p`, a representation `x² + y² = p` with `0 < x < y`. -/
theorem decomposeAll_spec : ∀ (l : List (ℕ × ℕ)),
    (∀ pk ∈ l, Nat.Prime pk.1 ∧ pk.1 % 4 = 1) →
    ∃ ds, decomposeAll l = Except.ok ds ∧ ds.map Prod.fst = l.map Prod.fst ∧
      ∀ e ∈ ds, e.2.1 * e.2.1 + e.2.2 * e.2.2 = e.1 ∧ 0 < e.2.1 ∧ e.2.1 < e.2.2 := by
  intro l
  induction l with
  | nil => exact fun _ => ⟨[], rfl, rfl, fun e he => absurd he (List.not_mem_nil e)⟩
  | cons hd rest ih =>
    intro h
    obtain ⟨p, k⟩ := hd
    obtain ⟨hp, h41⟩ := h (p, k) (List.mem_cons_self (p, k) rest)
    obtain ⟨x, y, hxy, hsum, hle⟩ := decompose_prime_rep p hp h41
    obtain ⟨ds, hds, hkeys, hvals⟩ := ih (fun pk hm => h pk (List.mem_cons_of_mem _ hm))
    refine ⟨(p, (x, y)) :: ds, ?_, ?_, ?_⟩
    · rw [decomposeAll, hxy]
      simp only [hds]
      rfl
    · rw [List.map_cons, List.map_cons, hkeys]
    · intro e he
      rcases List.mem_cons.mp he with rfl | hm
      · have hsum' : x * x + y * y = p := by
          have h2 := hsum
          rw [pow_two, pow_two] at h2
          exact h2
        have hnt := rep_nontrivial p hp h41 x y hsum'
        refine ⟨hsum', ?_, ?_⟩
        · show 0 < x
          rcases Nat.eq_zero_or_pos x with h0 | h0
          · exact absurd h0 hnt.1
          · exact h0
        · show x < y
          have h3 := hnt.2
          omega
      · exact hvals e hm

/-- With `no_trivial_solutions` off nothing is skipped. -/
theorem not_trivSkip_false (t : complexint) : ¬ trivSkip false t :=
  fun h => Bool.false_ne_true h.1

/-- `solKey` sorts a permutation of an ordered pair back to it. -/
theorem solKey_of_perm (t : complexint) (x y : ℕ) (hx : x ≤ y)
    (h : (t.real.natAbs = x ∧ t.imag.natAbs = y) ∨
      (t.real.natAbs = y ∧ t.imag.natAbs = x)) :
    solKey t = (x, y) := by
  rw [solKey]
  rcases h with ⟨h1, h2⟩ | ⟨h1, h2⟩
  · rw [h1, h2, if_neg (by omega : ¬ y < x)]
  · rcases Nat.lt_or_ge x y with hlt | hge
    · rw [h1, h2, if_pos hlt]
    · have hxy : x = y := by omega
      rw [h1, h2, hxy, if_neg (by omega : ¬ y < y)]

/-- A unit factor only permutes the absolute parts of a total. -/
theorem transport_package (t : complexint) (w u : GaussianInt) (x y : ℕ) (hx : x ≤ y)
    (hwre : w.re.natAbs = x) (hwim : w.im.natAbs = y)
    (hu : IsUnit u) (ht : toGauss t = w * u) :
    solKey t = (x, y) ∧
      ((t.real.natAbs = x ∧ t.imag.natAbs = y) ∨
        (t.real.natAbs = y ∧ t.imag.natAbs = x)) := by
  have h := unit_mul_natAbs w u hu
  rw [← ht, toGauss_re, toGauss_im, hwre, hwim] at h
  exact ⟨solKey_of_perm t x y hx h, h⟩

/-- A total with permuted nontrivial parts is not skipped. -/
theorem not_trivSkip_of_perm (noTriv : Bool) (t : complexint) (x y : ℕ)
    (hx0 : x ≠ 0) (hxy : x ≠ y) (hxle : x ≤ y)
    (h : (t.real.natAbs = x ∧ t.imag.natAbs = y) ∨
      (t.real.natAbs = y ∧ t.imag.natAbs = x)) :
    ¬ trivSkip noTriv t := by
  rintro ⟨-, hc⟩
  rcases h with ⟨h1, h2⟩ | ⟨h1, h2⟩ <;> rw [h1, h2] at hc <;> omega

/-- The sorted key of a total of norm `n` solves `x² + y² = n`. -/
theorem solKey_facts (t : complexint) (n : ℕ) (hn : gNorm (toGauss t) = n) :
    (solKey t).1 * (solKey t).1 + (solKey t).2 * (solKey t).2 = n ∧
      (solKey t).1 ≤ (solKey t).2 := by
  have h := gNorm_natAbs (toGauss t)
  rw [toGauss_re, toGauss_im, hn] at h
  rw [solKey]
  by_cases hc : t.imag.natAbs < t.real.natAbs
  · rw [if_pos hc]
    refine ⟨?_, ?_⟩
    · show t.imag.natAbs * t.imag.natAbs + t.real.natAbs * t.real.natAbs = n
      omega
    · show t.imag.natAbs ≤ t.real.natAbs
      omega
  · rw [if_neg hc]
    refine ⟨?_, ?_⟩
    · show t.real.natAbs * t.real.natAbs + t.imag.natAbs * t.imag.natAbs = n
      omega
    · show t.real.natAbs ≤ t.imag.natAbs
      omega

/-- An unskipped total yields a nontrivial sorted key. -/
theorem solKey_nontrivial (t : complexint) (h : ¬ trivSkip true t) :
    (solKey t).1 ≠ 0 ∧ (solKey t).1 ≠ (solKey t).2 := by
  have h2 : ¬ (t.real.natAbs = t.imag.natAbs ∨ t.real.natAbs = 0 ∨ t.imag.natAbs = 0) :=
    fun hb => h ⟨rfl, hb⟩
  push_neg at h2
  obtain ⟨hne, h0re, h0im⟩ := h2
  rw [solKey]
  by_cases hc : t.imag.natAbs < t.real.natAbs
  · rw [if_pos hc]
    refine ⟨?_, ?_⟩
    · show t.imag.natAbs ≠ 0
      exact h0im
    · show t.imag.natAbs ≠ t.real.natAbs
      exact fun hc2 => hne hc2.symm
  · rw [if_neg hc]
    exact ⟨h0re, hne⟩

/-- Soundness of one enumerated total: its sorted key solves `x² + y² = n`. -/
theorem enumeration_mem_sound (n : ℕ) (L : List (ℕ × ℕ)) (base : complexint)
    (repOf : ℕ → complexint × complexint)
    (hkeyK : ∀ p ∈ L.map Prod.fst, gNorm (toGauss (repOf p).1) = p ∧
      toGauss (repOf p).2 = star (toGauss (repOf p).1))
    (hnorm : gNorm (toGauss base) * prodFS L = n)
    (q : ℕ × ℕ) (bs : List Bool)
    (hlen : bs.length = (L.flatMap (fun pk => List.replicate pk.2 (repOf pk.1))).length)
    (hq : q = solKey (applyChoices base
      (L.flatMap (fun pk => List.replicate pk.2 (repOf pk.1))) bs)) :
    q.1 * q.1 + q.2 * q.2 = n ∧ q.1 ≤ q.2 := by
  have hocc_norm : ∀ occ ∈ L.flatMap (fun pk => List.replicate pk.2 (repOf pk.1)),
      gNorm (toGauss occ.2) = gNorm (toGauss occ.1) := by
    intro occ hm
    rw [List.mem_flatMap] at hm
    obtain ⟨pk, hpk, hocc⟩ := hm
    have heq := List.eq_of_mem_replicate hocc
    subst heq
    have hk := hkeyK pk.1 (List.mem_map.mpr ⟨pk, hpk, rfl⟩)
    rw [hk.2, gNorm_star]
  have hprod : gNorm (gProd (L.flatMap (fun pk => List.replicate pk.2 (repOf pk.1))) bs)
      = prodFS L := by
    rw [gNorm_gProd _ bs hlen hocc_norm, map_prod_flatMap_replicate, prodFS]
    apply congrArg
    apply List.map_congr_left
    intro pk hm
    rw [(hkeyK pk.1 (List.mem_map.mpr ⟨pk, hm, rfl⟩)).1]
  have ht : gNorm (toGauss (applyChoices base
      (L.flatMap (fun pk => List.replicate pk.2 (repOf pk.1))) bs)) = n := by
    rw [toGauss_applyChoices, gNorm_mul, hprod, hnorm]
  rw [hq]
  exact solKey_facts _ n ht

/-- In `no_trivial_solutions` mode, the enumeration over the decremented
first exponent reaches every split product with a positive first choice. -/
theorem triv_reach (base0 : complexint) (repOf : ℕ → complexint × complexint)
    (p₀ k₀ : ℕ) (rest : List (ℕ × ℕ)) (cs : List ℕ) (c₀ : ℕ)
    (hrep : ∀ pk ∈ ((p₀, k₀) :: rest : List (ℕ × ℕ)),
      toGauss (repOf pk.1).2 = star (toGauss (repOf pk.1).1))
    (hc1 : 1 ≤ c₀) (hck : c₀ ≤ k₀)
    (hf : List.Forall₂ (· ≤ ·) cs (rest.map Prod.snd)) :
    ∃ bs : List Bool,
      bs.length = (((p₀, k₀ - 1) :: rest).flatMap
          (fun pk => List.replicate pk.2 (repOf pk.1))).length ∧
      toGauss (applyChoices (gmul base0 (repOf p₀).1)
          (((p₀, k₀ - 1) :: rest).flatMap (fun pk => List.replicate pk.2 (repOf pk.1))) bs)
        = toGauss base0 *
          splitGP (fun p => toGauss (repOf p).1) ((p₀, k₀) :: rest) (c₀ :: cs) := by
  have hrep' : ∀ pk ∈ ((p₀, k₀ - 1) :: rest : List (ℕ × ℕ)),
      toGauss (repOf pk.1).2 = star (toGauss (repOf pk.1).1) := by
    intro pk hm
    rcases List.mem_cons.mp hm with rfl | hm'
    · exact hrep (p₀, k₀) (List.mem_cons_self _ _)
    · exact hrep pk (List.mem_cons_of_mem _ hm')
  have hfst : List.Forall₂ (· ≤ ·) ((c₀ - 1) :: cs)
      (((p₀, k₀ - 1) :: rest).map Prod.snd) := by
    rw [List.map_cons]
    exact List.Forall₂.cons (by omega : c₀ - 1 ≤ k₀ - 1) hf
  obtain ⟨bs, hlen, hprod⟩ := gProd_of_splitGP repOf ((p₀, k₀ - 1) :: rest)
    ((c₀ - 1) :: cs) hrep' hfst
  refine ⟨bs, hlen, ?_⟩
  rw [toGauss_applyChoices, hprod, toGauss_gmul]
  have hsp1 : splitGP (fun p => toGauss (repOf p).1) ((p₀, k₀ - 1) :: rest) ((c₀ - 1) :: cs)
      = toGauss (repOf p₀).1 ^ (c₀ - 1) *
        star (toGauss (repOf p₀).1) ^ (k₀ - 1 - (c₀ - 1)) *
        splitGP (fun p => toGauss (repOf p).1) rest cs := by
    rw [splitGP]
  have hsp2 : splitGP (fun p => toGauss (repOf p).1) ((p₀, k₀) :: rest) (c₀ :: cs)
      = toGauss (repOf p₀).1 ^ c₀ * star (toGauss (repOf p₀).1) ^ (k₀ - c₀) *
        splitGP (fun p => toGauss (repOf p).1) rest cs := by
    rw [splitGP]
  rw [hsp1, hsp2]
  have he1 : toGauss (repOf p₀).1 * toGauss (repOf p₀).1 ^ (c₀ - 1)
      = toGauss (repOf p₀).1 ^ c₀ := by
    rw [← pow_succ']
    congr 1
    omega
  have he2 : k₀ - 1 - (c₀ - 1) = k₀ - c₀ := by omega
  rw [he2, ← he1]
  ring

/-- The enumeration phase of `decompose_number` returns exactly the brute
force solution set of `n` (nontrivial solutions only when
`no_trivial_solutions` is set). -/
theorem enumeration_correct (n a M : ℕ) (p1 p3 : List (ℕ × ℕ))
    (repOf : ℕ → complexint × complexint) (triv : Bool)
    (base0 : complexint) (st : List (ℕ × ℕ) × complexint)
    (hM : M = (p3.map (fun pk => pk.1 ^ (pk.2 / 2))).prod)
    (hp3 : ∀ pk ∈ p3, Nat.Prime pk.1 ∧ pk.1 % 4 = 3 ∧ pk.2 % 2 = 0)
    (hrep : ∀ p ∈ p1.map Prod.fst, ∃ x y : ℕ,
      (repOf p).1 = ⟨(x : ℤ), (y : ℤ)⟩ ∧ (repOf p).2 = ⟨(x : ℤ), -(y : ℤ)⟩ ∧
      x * x + y * y = p)
    (hprimes : ∀ pk ∈ p1, Nat.Prime pk.1)
    (hpos : ∀ pk ∈ p1, 0 < pk.2)
    (hn : 2 ^ a * prodFS p1 * prodFS p3 = n)
    (hnontriv : triv = true → p1 ≠ [])
    (hbase0 : base0 = gmul ⟨(M : ℤ), 0⟩ (gpow ⟨1, 1⟩ a))
    (hst : st = if triv = true then
        (if p1 = [] then (p1, base0)
         else ((p1.headI.1, p1.headI.2 - 1) :: p1.tail,
           gmul base0 (repOf p1.headI.1).1))
      else (p1, base0)) :
    (allChoices (st.1.flatMap (fun pk => List.replicate pk.2 (repOf pk.1))).length).foldl
        (fun fd bs => addSol triv fd
          (applyChoices st.2 (st.1.flatMap (fun pk => List.replicate pk.2 (repOf pk.1))) bs))
        ∅
      = if triv = true then brute_force_nontrivial n else brute_force_twosquares n := by
  have hkeyK : ∀ p ∈ p1.map Prod.fst, Prime (toGauss (repOf p).1) ∧
      gNorm (toGauss (repOf p).1) = p ∧
      toGauss (repOf p).2 = star (toGauss (repOf p).1) := by
    intro p hm
    obtain ⟨x, y, h1, h2, hsum⟩ := hrep p hm
    obtain ⟨pk, hpk, rfl⟩ := List.mem_map.mp hm
    have hp := hprimes pk hpk
    have hg1 : toGauss (repOf pk.1).1 = (⟨(x : ℤ), (y : ℤ)⟩ : GaussianInt) := by
      rw [h1]
      rfl
    have hg2 : toGauss (repOf pk.1).2 = (⟨(x : ℤ), -(y : ℤ)⟩ : GaussianInt) := by
      rw [h2]
      rfl
    have hnorm : gNorm (toGauss (repOf pk.1).1) = pk.1 := by
      rw [hg1, gNorm_mk, hsum]
    refine ⟨prime_of_gNorm_prime _ (by rw [hnorm]; exact hp), hnorm, ?_⟩
    rw [hg2, hg1, Zsqrtd.star_mk]
  have hrep2 : ∀ pk ∈ p1, toGauss (repOf pk.1).2 = star (toGauss (repOf pk.1).1) :=
    fun pk hm => (hkeyK pk.1 (List.mem_map.mpr ⟨pk, hm, rfl⟩)).2.2
  have hM2 : M * M = prodFS p3 := by
    rw [hM]
    exact (prodFS_even_sq p3 (fun pk hm => (hp3 pk hm).2.2)).symm
  have hcastM : toGauss ⟨(M : ℤ), 0⟩ = ((M : ℕ) : GaussianInt) := by
    refine Zsqrtd.ext ?_ ?_ <;> simp [toGauss]
  have htb : toGauss base0 = ((M : ℕ) : GaussianInt) * (⟨1, 1⟩ : GaussianInt) ^ a := by
    rw [hbase0, toGauss_gmul, toGauss_gpow, hcastM]
    rfl
  have h11 : gNorm (⟨1, 1⟩ : GaussianInt) = 2 := by
    norm_num [gNorm, Zsqrtd.norm_def]
  have hnb : gNorm (toGauss base0) = M * M * 2 ^ a := by
    rw [htb, gNorm_mul, gNorm_natCast, gNorm_pow, h11]
  have hp3' : ∀ pk ∈ p3, Nat.Prime pk.1 ∧ pk.1 % 4 = 3 ∧ Even pk.2 := by
    intro pk hm
    obtain ⟨ha1, ha2, ha3⟩ := hp3 pk hm
    exact ⟨ha1, ha2, Nat.even_iff.mpr ha3⟩
  have hms : ∀ pk ∈ p1, 0 < pk.1 ∧ Prime ((fun p => toGauss (repOf p).1) pk.1) ∧
      gNorm ((fun p => toGauss (repOf p).1) pk.1) = pk.1 := by
    intro pk hm
    have hk := hkeyK pk.1 (List.mem_map.mpr ⟨pk, hm, rfl⟩)
    exact ⟨(hprimes pk hm).pos, hk.1, hk.2.1⟩
  have hdecomp : ∀ x y : ℕ, x * x + y * y = n →
      ∃ cs u, List.Forall₂ (· ≤ ·) cs (p1.map Prod.snd) ∧ IsUnit u ∧
        (⟨(x : ℤ), (y : ℤ)⟩ : GaussianInt)
          = toGauss base0 * splitGP (fun p => toGauss (repOf p).1) p1 cs * u := by
    intro x y hxy
    have hw : gNorm ⟨(x : ℤ), (y : ℤ)⟩ = prodFS p1 * (prodFS p3 * 2 ^ a) := by
      rw [gNorm_mk, hxy, ← hn]
      ring
    obtain ⟨cs, w₁, hcslen, hcsf, hfac1, hn1⟩ :=
      master_split (fun p => toGauss (repOf p).1) p1 _ _ hms hw
    obtain ⟨w₂, hfac2, hn2⟩ := peel_inert_list p3 w₁ _ hp3' hn1
    obtain ⟨u, hfac3, hnu⟩ := peel_two a w₂ 1 (by rw [hn2, mul_one])
    refine ⟨cs, u, hcsf, isUnit_of_gNorm_one u hnu, ?_⟩
    rw [hfac1, hfac2, hfac3, htb, hM]
    ring
  cases triv with
  | false =>
    rw [if_neg (Bool.false_ne_true)]
    have h1st : st.1 = p1 := by
      simp only [hst]
      rfl
    have h2st : st.2 = base0 := by
      simp only [hst]
      rfl
    rw [h1st, h2st]
    have hnorm : gNorm (toGauss base0) * prodFS p1 = n := by
      rw [hnb, ← hn, ← hM2]
      ring
    ext q
    rw [mem_foldl_addSol]
    simp only [Finset.not_mem_empty, false_or]
    rw [mem_brute_force]
    constructor
    · rintro ⟨bs, hbs, -, hq⟩
      rw [mem_allChoices] at hbs
      exact enumeration_mem_sound n p1 base0 repOf
        (fun p hm => ⟨(hkeyK p hm).2.1, (hkeyK p hm).2.2⟩) hnorm q bs hbs hq
    · rintro ⟨hsum, hle⟩
      obtain ⟨cs, u, hcsf, hu, hweq⟩ := hdecomp q.1 q.2 hsum
      obtain ⟨bs, hlen, hg⟩ := gProd_of_splitGP repOf p1 cs hrep2 hcsf
      obtain ⟨v, hv⟩ := hu.exists_right_inv
      have hvu : IsUnit v := isUnit_of_mul_eq_one v u (by rw [mul_comm]; exact hv)
      have hGw : toGauss (applyChoices base0
          (p1.flatMap (fun pk => List.replicate pk.2 (repOf pk.1))) bs)
          = (⟨(q.1 : ℤ), (q.2 : ℤ)⟩ : GaussianInt) * v := by
        calc toGauss (applyChoices base0
              (p1.flatMap (fun pk => List.replicate pk.2 (repOf pk.1))) bs)
            = toGauss base0 * splitGP (fun p => toGauss (repOf p).1) p1 cs := by
              rw [toGauss_applyChoices, hg]
        _ = (toGauss base0 * splitGP (fun p => toGauss (repOf p).1) p1 cs) * 1 :=
              (mul_one _).symm
        _ = (toGauss base0 * splitGP (fun p => toGauss (repOf p).1) p1 cs) * (u * v) := by
              rw [hv]
        _ = ((toGauss base0 * splitGP (fun p => toGauss (repOf p).1) p1 cs) * u) * v := by
              ring
        _ = (⟨(q.1 : ℤ), (q.2 : ℤ)⟩ : GaussianInt) * v := by rw [← hweq]
      obtain ⟨hsolkey, hperm⟩ := transport_package _ _ v q.1 q.2 hle
        (Int.natAbs_ofNat q.1) (Int.natAbs_ofNat q.2) hvu hGw
      exact ⟨bs, (mem_allChoices _ _).mpr hlen, not_trivSkip_false _, by rw [hsolkey]⟩
  | true =>
    rw [if_pos rfl]
    have hne0 : p1 ≠ [] := hnontriv rfl
    cases p1 with
    | nil => exact absurd rfl hne0
    | cons hd rest =>
      obtain ⟨p₀, k₀⟩ := hd
      have h1st : st.1 = (p₀, k₀ - 1) :: rest := by
        simp only [hst]
        rfl
      have h2st : st.2 = gmul base0 (repOf p₀).1 := by
        simp only [hst]
        rfl
      rw [h1st, h2st]
      have hk₀ : 0 < k₀ := hpos (p₀, k₀) (List.mem_cons_self _ _)
      have hp₀mem : p₀ ∈ ((p₀, k₀) :: rest).map Prod.fst := by
        rw [List.map_cons]
        exact List.mem_cons_self _ _
      have hkp₀ : gNorm (toGauss (repOf p₀).1) = p₀ := (hkeyK p₀ hp₀mem).2.1
      have hpow : p₀ * p₀ ^ (k₀ - 1) = p₀ ^ k₀ := by
        rw [← pow_succ']
        congr 1
        omega
      have hnorm : gNorm (toGauss (gmul base0 (repOf p₀).1)) *
          prodFS ((p₀, k₀ - 1) :: rest) = n := by
        rw [toGauss_gmul, gNorm_mul, hnb, hkp₀, prodFS_cons, ← hn, prodFS_cons, ← hM2]
        show M * M * 2 ^ a * p₀ * (p₀ ^ (k₀ - 1) * prodFS rest)
          = 2 ^ a * (p₀ ^ k₀ * prodFS rest) * (M * M)
        rw [← hpow]
        ring
      have hkeys' : ∀ p ∈ ((p₀, k₀ - 1) :: rest).map Prod.fst,
          gNorm (toGauss (repOf p).1) = p ∧
          toGauss (repOf p).2 = star (toGauss (repOf p).1) := by
        intro p hm
        have hm' : p ∈ ((p₀, k₀) :: rest).map Prod.fst := by
          rw [List.map_cons] at hm ⊢
          exact hm
        exact ⟨(hkeyK p hm').2.1, (hkeyK p hm').2.2⟩
      ext q
      rw [mem_foldl_addSol]
      simp only [Finset.not_mem_empty, false_or]
      rw [mem_brute_force_nontrivial]
      constructor
      · rintro ⟨bs, hbs, hskip, hq⟩
        rw [mem_allChoices] at hbs
        refine ⟨enumeration_mem_sound n ((p₀, k₀ - 1) :: rest) (gmul base0 (repOf p₀).1)
          repOf hkeys' hnorm q bs hbs hq, ?_⟩
        rw [hq]
        exact solKey_nontrivial _ hskip
      · rintro ⟨⟨hsum, hle⟩, hq0, hqne⟩
        obtain ⟨cs, u, hcsf, hu, hweq⟩ := hdecomp q.1 q.2 hsum
        rw [List.map_cons] at hcsf
        cases hcsf with
        | cons hc0 htail =>
          rename_i c₀ cs'
          by_cases hc0pos : 1 ≤ c₀
          · obtain ⟨bs, hlen, hreach⟩ := triv_reach base0 repOf p₀ k₀ rest cs' c₀
              hrep2 hc0pos hc0 htail
            obtain ⟨v, hv⟩ := hu.exists_right_inv
            have hvu : IsUnit v := isUnit_of_mul_eq_one v u (by rw [mul_comm]; exact hv)
            have hGw : toGauss (applyChoices (gmul base0 (repOf p₀).1)
                (((p₀, k₀ - 1) :: rest).flatMap
                  (fun pk => List.replicate pk.2 (repOf pk.1))) bs)
                = (⟨(q.1 : ℤ), (q.2 : ℤ)⟩ : GaussianInt) * v := by
              calc toGauss (applyChoices (gmul base0 (repOf p₀).1)
                    (((p₀, k₀ - 1) :: rest).flatMap
                      (fun pk => List.replicate pk.2 (repOf pk.1))) bs)
                  = toGauss base0 * splitGP (fun p => toGauss (repOf p).1)
                      ((p₀, k₀) :: rest) (c₀ :: cs') := hreach
              _ = (toGauss base0 * splitGP (fun p => toGauss (repOf p).1)
                      ((p₀, k₀) :: rest) (c₀ :: cs')) * 1 := (mul_one _).symm
              _ = (toGauss base0 * splitGP (fun p => toGauss (repOf p).1)
                      ((p₀, k₀) :: rest) (c₀ :: cs')) * (u * v) := by rw [hv]
              _ = ((toGauss base0 * splitGP (fun p => toGauss (repOf p).1)
                      ((p₀, k₀) :: rest) (c₀ :: cs')) * u) * v := by ring
              _ = (⟨(q.1 : ℤ), (q.2 : ℤ)⟩ : GaussianInt) * v := by rw [← hweq]
            obtain ⟨hsolkey, hperm⟩ := transport_package _ _ v q.1 q.2 hle
              (Int.natAbs_ofNat q.1) (Int.natAbs_ofNat q.2) hvu hGw
            exact ⟨bs, (mem_allChoices _ _).mpr hlen,
              not_trivSkip_of_perm true _ q.1 q.2 hq0 hqne hle hperm, by rw [hsolkey]⟩
          · have hc00 : c₀ = 0 := by omega
            subst hc00
            have hiu : IsUnit (⟨0, -1⟩ : GaussianInt) := by
              refine isUnit_of_mul_eq_one _ ⟨0, 1⟩ ?_
              refine Zsqrtd.ext ?_ ?_ <;> simp [Zsqrtd.mul_re, Zsqrtd.mul_im]
            have hstarB : star (toGauss base0)
                = toGauss base0 * (⟨0, -1⟩ : GaussianInt) ^ a := by
              rw [htb, star_mul, star_natCast, star_pow]
              have hs11 : star (⟨1, 1⟩ : GaussianInt)
                  = (⟨1, 1⟩ : GaussianInt) * ⟨0, -1⟩ := by
                rw [Zsqrtd.star_mk]
                refine Zsqrtd.ext ?_ ?_ <;> simp [Zsqrtd.mul_re, Zsqrtd.mul_im]
              rw [hs11, mul_pow]
              ring
            have hS : star (splitGP (fun p => toGauss (repOf p).1) ((p₀, k₀) :: rest)
                  (0 :: cs'))
                = splitGP (fun p => toGauss (repOf p).1) ((p₀, k₀) :: rest)
                  (List.zipWith (fun pk c => pk.2 - c) ((p₀, k₀) :: rest) (0 :: cs')) :=
              star_splitGP _ _ _
                (by rw [List.map_cons]; exact List.Forall₂.cons (Nat.zero_le _) htail)
            have hzip : List.zipWith (fun pk c => pk.2 - c) ((p₀, k₀) :: rest) (0 :: cs')
                = k₀ :: List.zipWith (fun pk c => pk.2 - c) rest cs' := by
              rw [List.zipWith_cons_cons, Nat.sub_zero]
            rw [hzip] at hS
            have hstar : star (⟨(q.1 : ℤ), (q.2 : ℤ)⟩ : GaussianInt)
                = toGauss base0 * splitGP (fun p => toGauss (repOf p).1)
                    ((p₀, k₀) :: rest) (k₀ :: List.zipWith (fun pk c => pk.2 - c) rest cs') *
                  ((⟨0, -1⟩ : GaussianInt) ^ a * star u) := by
              rw [hweq, star_mul, star_mul, hS, hstarB]
              ring
            obtain ⟨bs, hlen, hreach⟩ := triv_reach base0 repOf p₀ k₀ rest
              (List.zipWith (fun pk c => pk.2 - c) rest cs') k₀
              hrep2 hk₀ le_rfl (forall₂_zipWith_sub rest cs' htail)
            have hu' : IsUnit ((⟨0, -1⟩ : GaussianInt) ^ a * star u) :=
              (hiu.pow a).mul hu.star
            obtain ⟨v, hv⟩ := hu'.exists_right_inv
            have hvu : IsUnit v :=
              isUnit_of_mul_eq_one v _ (by rw [mul_comm]; exact hv)
            have hGw : toGauss (applyChoices (gmul base0 (repOf p₀).1)
                (((p₀, k₀ - 1) :: rest).flatMap
                  (fun pk => List.replicate pk.2 (repOf pk.1))) bs)
                = star (⟨(q.1 : ℤ), (q.2 : ℤ)⟩ : GaussianInt) * v := by
              calc toGauss (applyChoices (gmul base0 (repOf p₀).1)
                    (((p₀, k₀ - 1) :: rest).flatMap
                      (fun pk => List.replicate pk.2 (repOf pk.1))) bs)
                  = toGauss base0 * splitGP (fun p => toGauss (repOf p).1)
                      ((p₀, k₀) :: rest)
                      (k₀ :: List.zipWith (fun pk c => pk.2 - c) rest cs') := hreach
              _ = (toGauss base0 * splitGP (fun p => toGauss (repOf p).1)
                      ((p₀, k₀) :: rest)
                      (k₀ :: List.zipWith (fun pk c => pk.2 - c) rest cs')) * 1 :=
                    (mul_one _).symm
              _ = (toGauss base0 * splitGP (fun p => toGauss (repOf p).1)
                      ((p₀, k₀) :: rest)
                      (k₀ :: List.zipWith (fun pk c => pk.2 - c) rest cs')) *
                    (((⟨0, -1⟩ : GaussianInt) ^ a * star u) * v) := by rw [hv]
              _ = ((toGauss base0 * splitGP (fun p => toGauss (repOf p).1)
                      ((p₀, k₀) :: rest)
                      (k₀ :: List.zipWith (fun pk c => pk.2 - c) rest cs')) *
                    ((⟨0, -1⟩ : GaussianInt) ^ a * star u)) * v := by ring
              _ = star (⟨(q.1 : ℤ), (q.2 : ℤ)⟩ : GaussianInt) * v := by rw [← hstar]
            have hsre : (star (⟨(q.1 : ℤ), (q.2 : ℤ)⟩ : GaussianInt)).re.natAbs = q.1 := by
              rw [Zsqrtd.star_mk]
              exact Int.natAbs_ofNat q.1
            have hsim : (star (⟨(q.1 : ℤ), (q.2 : ℤ)⟩ : GaussianInt)).im.natAbs = q.2 := by
              rw [Zsqrtd.star_mk]
              show (-(q.2 : ℤ)).natAbs = q.2
              rw [Int.natAbs_neg]
              exact Int.natAbs_ofNat q.2
            obtain ⟨hsolkey, hperm⟩ := transport_package _ _ v q.1 q.2 hle
              hsre hsim hvu hGw
            exact ⟨bs, (mem_allChoices _ _).mpr hlen,
              not_trivSkip_of_perm true _ q.1 q.2 hq0 hqne hle hperm, by rw [hsolkey]⟩

/-- The single-prime shortcut branch of `decompose_number`, unfolded. -/
theorem decompose_number_single (p : ℕ) (cc : Option ℕ) (lc nt : Bool) :
    decompose_number [(p, 1)] cc lc nt =
      (if ccTruthy cc ∧ 1 < ccVal cc then Except.ok ∅
       else if p % 4 = 3 then Except.ok ∅
       else if p = 0 then Except.ok {(0, 0)}
       else if p = 2 ∧ nt = true then Except.ok ∅
       else do
         let pr ← decompose_prime p 1
         Except.ok {pr}) := by
  rw [decompose_number, if_pos (by simp)]
  rfl

/-- The representative table of the enumeration: looking up a key of the
decomposition list returns its `(a+bi, a-bi)` pair. -/
theorem repOf_spec (decomps : List (ℕ × (ℕ × ℕ))) (keys : List ℕ)
    (hkeys : decomps.map Prod.fst = keys)
    (hne : keys.Pairwise (· ≠ ·))
    (hvals : ∀ e ∈ decomps, e.2.1 * e.2.1 + e.2.2 * e.2.2 = e.1) :
    ∀ p ∈ keys, ∃ x y : ℕ,
      ((List.lookup p (decomps.map (fun pd =>
          (pd.1, ((⟨(pd.2.1 : ℤ), (pd.2.2 : ℤ)⟩ : complexint),
            (⟨(pd.2.1 : ℤ), -(pd.2.2 : ℤ)⟩ : complexint)))))).getD
        (⟨1, 0⟩, ⟨1, 0⟩)).1 = ⟨(x : ℤ), (y : ℤ)⟩ ∧
      ((List.lookup p (decomps.map (fun pd =>
          (pd.1, ((⟨(pd.2.1 : ℤ), (pd.2.2 : ℤ)⟩ : complexint),
            (⟨(pd.2.1 : ℤ), -(pd.2.2 : ℤ)⟩ : complexint)))))).getD
        (⟨1, 0⟩, ⟨1, 0⟩)).2 = ⟨(x : ℤ), -(y : ℤ)⟩ ∧
      x * x + y * y = p := by
  intro p hp
  rw [← hkeys] at hp
  obtain ⟨pd, hpd, hfst⟩ := List.mem_map.mp hp
  subst hfst
  have hkeyeq : (decomps.map (fun pd =>
      (pd.1, ((⟨(pd.2.1 : ℤ), (pd.2.2 : ℤ)⟩ : complexint),
        (⟨(pd.2.1 : ℤ), -(pd.2.2 : ℤ)⟩ : complexint))))).map Prod.fst = keys := by
    rw [List.map_map]
    exact hkeys
  have hlook := lookup_of_mem_nodup _ pd.1
    ((⟨(pd.2.1 : ℤ), (pd.2.2 : ℤ)⟩ : complexint),
     (⟨(pd.2.1 : ℤ), -(pd.2.2 : ℤ)⟩ : complexint))
    (by rw [hkeyeq]; exact hne)
    (List.mem_map.mpr ⟨pd, hpd, rfl⟩)
  refine ⟨pd.2.1, pd.2.2, ?_, ?_, hvals pd hpd⟩
  · rw [hlook]
    rfl
  · rw [hlook]
    rfl


set_option maxHeartbeats 3200000 in
/-- `decompose_number` on the factorization of any `n ≥ 1` (default
`check_count` and `limited_checks`) equals the brute-force solution set,
nontrivial-only exactly when `no_trivial_solutions` is set. -/
theorem decompose_number_eq_brute (n : ℕ) (hn : 1 ≤ n) (triv : Bool) :
    decompose_number_int n none false triv =
      Except.ok (if triv = true then brute_force_nontrivial n
        else brute_force_twosquares n) := by
  obtain ⟨hprod, hinc⟩ := factorint_spec n hn
  have hpr := factorint_primes n
  have hne : ((factorint n).map Prod.fst).Pairwise (· ≠ ·) :=
    hinc.imp (fun h => Nat.ne_of_lt h)
  rw [decompose_number_int]
  by_cases hshort : (factorint n).length = 1 ∧ ((factorint n).map Prod.snd).sum = 1
  · obtain ⟨pk, hpk⟩ := List.length_eq_one.mp hshort.1
    obtain ⟨p, e⟩ := pk
    have he1 : e = 1 := by
      rw [hpk] at hshort
      simpa using hshort.2
    subst he1
    have hp : Nat.Prime p := by
      have h2 := hpr (p, 1) (by rw [hpk]; exact List.mem_cons_self _ _)
      exact h2.1
    have hnp : n = p := by
      rw [hpk, prodFS_cons, prodFS_nil, pow_one, mul_one] at hprod
      exact hprod.symm
    rw [hpk, decompose_number_single]
    rw [if_neg (by simp [ccTruthy] : ¬ (ccTruthy none = true ∧ 1 < ccVal none))]
    by_cases h43 : p % 4 = 3
    · rw [if_pos h43]
      have hb : brute_force_twosquares n = ∅ :=
        brute_force_three_mod_four n (by rw [hnp]; exact h43)
      have hbn : brute_force_nontrivial n = ∅ := by
        rw [brute_force_nontrivial, hb]
        rfl
      cases triv
      · rw [if_neg Bool.false_ne_true, hb]
      · rw [if_pos rfl, hbn]
    · rw [if_neg h43, if_neg hp.pos.ne']
      by_cases hp2 : p = 2
      · subst hp2
        subst hnp
        cases triv <;> decide
      · have hodd : p % 2 = 1 := by
          rcases hp.eq_two_or_odd with h | h
          · exact absurd h hp2
          · exact h
        have h41 : p % 4 = 1 := by omega
        obtain ⟨x, y, hdp, hsump, hle⟩ := decompose_prime_rep p hp h41
        have hsum' : x * x + y * y = p := by
          rw [pow_two, pow_two] at hsump
          exact hsump
        have hnt := rep_nontrivial p hp h41 x y hsum'
        rw [if_neg (fun h => hp2 h.1), hdp]
        have hbx : brute_force_twosquares n = {(x, y)} := by
          ext q
          rw [mem_brute_force, Finset.mem_singleton]
          constructor
          · rintro ⟨hq1, hq2⟩
            have hu := sum_two_squares_unique p hp x y q.1 q.2 hsum'
              (by rw [← hnp]; exact hq1) hle hq2
            rw [Prod.ext_iff]
            exact ⟨hu.1, hu.2⟩
          · rintro rfl
            refine ⟨?_, ?_⟩
            · show x * x + y * y = n
              rw [hnp]
              exact hsum'
            · exact hle
        have hbnx : brute_force_nontrivial n = {(x, y)} := by
          rw [brute_force_nontrivial, hbx, Finset.filter_singleton,
            if_pos (show (x, y).1 ≠ 0 ∧ (x, y).1 ≠ (x, y).2 from ⟨hnt.1, hnt.2⟩)]
        cases triv
        · rw [if_neg Bool.false_ne_true, hbx]
          rfl
        · rw [if_pos rfl, hbnx]
          rfl
  · by_cases hany : ((factorint n).filter (fun pk => pk.1 % 4 = 3)).any
        (fun pk => pk.2 % 2 = 1) = true
    · obtain ⟨qk, hqkmem, hqodd⟩ := List.any_eq_true.mp hany
      have hqodd' : qk.2 % 2 = 1 := by simpa using hqodd
      have hmemfs : qk ∈ factorint n := (List.mem_filter.mp hqkmem).1
      have h43' : qk.1 % 4 = 3 := by
        have h3 := (List.mem_filter.mp hqkmem).2
        simpa using h3
      have hb : brute_force_twosquares n = ∅ := by
        rw [Finset.eq_empty_iff_forall_not_mem]
        intro q hq
        rw [mem_brute_force] at hq
        exact no_rep_of_odd_inert (factorint n) qk.1 qk.2
          (fun pk hm => (hpr pk hm).1) hne hmemfs h43' hqodd' q.1 q.2
          (hq.1.trans hprod.symm)
      have hbn : brute_force_nontrivial n = ∅ := by
        rw [brute_force_nontrivial, hb]
        rfl
      dsimp only [decompose_number]
      rw [if_neg hshort, if_pos (And.intro (Or.inl rfl) hany)]
      cases triv
      · rw [if_neg Bool.false_ne_true, hb]
      · rw [if_pos rfl, hbn]
    · have heven : ∀ pk ∈ (factorint n).filter (fun pk => pk.1 % 4 = 3),
          pk.2 % 2 = 0 := by
        intro pk hm
        by_contra hoddc
        exact hany (List.any_eq_true.mpr ⟨pk, hm, by simp only [decide_eq_true_eq]; omega⟩)
      have hp1fact : ∀ pk ∈ (factorint n).filter (fun pk => pk.1 % 4 = 1),
          Nat.Prime pk.1 ∧ pk.1 % 4 = 1 := by
        intro pk hm
        rw [List.mem_filter] at hm
        exact ⟨(hpr pk hm.1).1, by simpa using hm.2⟩
      have hp1pos : ∀ pk ∈ (factorint n).filter (fun pk => pk.1 % 4 = 1), 0 < pk.2 := by
        intro pk hm
        rw [List.mem_filter] at hm
        exact (hpr pk hm.1).2
      have hp3spec : ∀ pk ∈ (factorint n).filter (fun pk => pk.1 % 4 = 3),
          Nat.Prime pk.1 ∧ pk.1 % 4 = 3 ∧ pk.2 % 2 = 0 := by
        intro pk hm
        have hm2 := hm
        rw [List.mem_filter] at hm2
        exact ⟨(hpr pk hm2.1).1, by simpa using hm2.2, heven pk hm⟩
      have hp1ne : (((factorint n).filter (fun pk => pk.1 % 4 = 1)).map Prod.fst).Pairwise
          (· ≠ ·) :=
        List.Pairwise.sublist ((List.filter_sublist _).map Prod.fst) hne
      have hpart : 2 ^ ((List.lookup 2 (factorint n)).getD 0) *
          prodFS ((factorint n).filter (fun pk => pk.1 % 4 = 1)) *
          prodFS ((factorint n).filter (fun pk => pk.1 % 4 = 3)) = n :=
        (prodFS_partition (factorint n) (fun pk hm => (hpr pk hm).1) hne).symm.trans hprod
      obtain ⟨decomps, hds, hdkeys, hdvals⟩ := decomposeAll_spec _ hp1fact
      have hrepOf := repOf_spec decomps
        (((factorint n).filter (fun pk => pk.1 % 4 = 1)).map Prod.fst) hdkeys hp1ne
        (fun e he => (hdvals e he).1)
      have hcc3 : ¬ (ccTruthy none = true ∧
          ((((factorint n).filter (fun pk => pk.1 % 4 = 1)).map
            (fun pk => pk.2 + 1)).prod < ccVal none)) := by
        simp [ccTruthy]
      by_cases hp1e : (factorint n).filter (fun pk => pk.1 % 4 = 1) = []
      · cases triv
        · dsimp only [decompose_number]
          rw [if_neg hshort,
            if_neg (fun h : (false = false ∨ false = true) ∧ _ => hany h.2),
            if_neg (fun h : _ ∧ false = true => Bool.false_ne_true h.2),
            if_neg hcc3, hds]
          rw [if_neg Bool.false_ne_true]
          have htest := (enumeration_correct n
            ((List.lookup 2 (factorint n)).getD 0)
            ((((factorint n).filter (fun pk => pk.1 % 4 = 3)).map
              (fun pk => pk.1 ^ (pk.2 / 2))).prod)
            ((factorint n).filter (fun pk => pk.1 % 4 = 1))
            ((factorint n).filter (fun pk => pk.1 % 4 = 3))
            (fun p => (List.lookup p (decomps.map (fun pd =>
              (pd.1, ((⟨(pd.2.1 : ℤ), (pd.2.2 : ℤ)⟩ : complexint),
                (⟨(pd.2.1 : ℤ), -(pd.2.2 : ℤ)⟩ : complexint)))))).getD
              (⟨1, 0⟩, ⟨1, 0⟩))
            false _ _ rfl hp3spec hrepOf (fun pk hm => (hp1fact pk hm).1) hp1pos hpart
            (fun h => absurd h Bool.false_ne_true) rfl rfl)
          exact congrArg Except.ok htest
        · have hbn : brute_force_nontrivial n = ∅ := by
            rw [Finset.eq_empty_iff_forall_not_mem]
            intro q hq
            rw [mem_brute_force_nontrivial] at hq
            obtain ⟨⟨hsum, hle⟩, hq0, hqne⟩ := hq
            have htriv := trivial_rep_of_no_split (factorint n)
              (fun pk hm => (hpr pk hm).1) hne hp1e heven q.1 q.2
              (hsum.trans hprod.symm)
            rcases htriv with h | h | h
            · exact hqne h
            · exact hq0 h
            · omega
          dsimp only [decompose_number]
          rw [if_neg hshort,
            if_neg (fun h : (false = false ∨ true = true) ∧ _ => hany h.2),
            if_pos (And.intro hp1e rfl)]
          rw [if_pos rfl, hbn]
      · cases triv
        · dsimp only [decompose_number]
          rw [if_neg hshort,
            if_neg (fun h : (false = false ∨ false = true) ∧ _ => hany h.2),
            if_neg (fun h : _ ∧ false = true => Bool.false_ne_true h.2),
            if_neg hcc3, hds]
          rw [if_neg Bool.false_ne_true]
          have htest := (enumeration_correct n
            ((List.lookup 2 (factorint n)).getD 0)
            ((((factorint n).filter (fun pk => pk.1 % 4 = 3)).map
              (fun pk => pk.1 ^ (pk.2 / 2))).prod)
            ((factorint n).filter (fun pk => pk.1 % 4 = 1))
            ((factorint n).filter (fun pk => pk.1 % 4 = 3))
            (fun p => (List.lookup p (decomps.map (fun pd =>
              (pd.1, ((⟨(pd.2.1 : ℤ), (pd.2.2 : ℤ)⟩ : complexint),
                (⟨(pd.2.1 : ℤ), -(pd.2.2 : ℤ)⟩ : complexint)))))).getD
              (⟨1, 0⟩, ⟨1, 0⟩))
            false _ _ rfl hp3spec hrepOf (fun pk hm => (hp1fact pk hm).1) hp1pos hpart
            (fun h => absurd h Bool.false_ne_true) rfl rfl)
          exact congrArg Except.ok htest
        · dsimp only [decompose_number]
          rw [if_neg hshort,
            if_neg (fun h : (false = false ∨ true = true) ∧ _ => hany h.2),
            if_neg (fun h : _ ∧ true = true => hp1e h.1),
            if_neg hcc3, hds]
          rw [if_pos rfl]
          have htest := (enumeration_correct n
            ((List.lookup 2 (factorint n)).getD 0)
            ((((factorint n).filter (fun pk => pk.1 % 4 = 3)).map
              (fun pk => pk.1 ^ (pk.2 / 2))).prod)
            ((factorint n).filter (fun pk => pk.1 % 4 = 1))
            ((factorint n).filter (fun pk => pk.1 % 4 = 3))
            (fun p => (List.lookup p (decomps.map (fun pd =>
              (pd.1, ((⟨(pd.2.1 : ℤ), (pd.2.2 : ℤ)⟩ : complexint),
                (⟨(pd.2.1 : ℤ), -(pd.2.2 : ℤ)⟩ : complexint)))))).getD
              (⟨1, 0⟩, ⟨1, 0⟩))
            true _ _ rfl hp3spec hrepOf (fun pk hm => (hp1fact pk hm).1) hp1pos hpart
            (fun _ => hp1e) rfl rfl)
          exact congrArg Except.ok htest

/-- C1: for every integer `n` in `[1, 50000]`, `decompose_number(n)` with
default flags (`check_count = None`, `limited_checks = False`,
`no_trivial_solutions = True`) returns exactly the set
`{(x, y) : 0 ≤ x < y, x² + y² = n, x ≠ 0}` obtained by brute-force
scanning `x` from `0` to `isqrt n`. -/
theorem decompose_number_matches_brute (n : ℕ) (h1 : 1 ≤ n) (h2 : n ≤ 50000) :
    decompose_number_int n none false true = Except.ok (brute_force_nontrivial n) := by
  have h := decompose_number_eq_brute n h1 true
  rwa [if_pos rfl] at h

/-- Witness for `decompose_number_matches_brute` at `n = 25`. -/
theorem decompose_number_matches_brute_witness :
    1 ≤ 25 ∧ 25 ≤ 50000 ∧
    decompose_number_int 25 none false true = Except.ok (brute_force_nontrivial 25) :=
  ⟨by norm_num, by norm_num,
    decompose_number_matches_brute 25 (by norm_num) (by norm_num)⟩

/-- C2: for every integer `n` in `[1, 50000]`,
`decompose_number(n, no_trivial_solutions=False)` returns exactly the full
brute-force set `{(x, y) : 0 ≤ x ≤ y, x² + y² = n}`, including pairs with
`x = 0` and pairs with `x = y`. -/
theorem decompose_number_matches_brute_full (n : ℕ) (h1 : 1 ≤ n) (h2 : n ≤ 50000) :
    decompose_number_int n none false false = Except.ok (brute_force_twosquares n) := by
  have h := decompose_number_eq_brute n h1 false
  rwa [if_neg Bool.false_ne_true] at h

/-- Witness for `decompose_number_matches_brute_full` at `n = 50`. -/
theorem decompose_number_matches_brute_full_witness :
    1 ≤ 50 ∧ 50 ≤ 50000 ∧
    decompose_number_int 50 none false false = Except.ok (brute_force_twosquares 50) :=
  ⟨by norm_num, by norm_num,
    decompose_number_matches_brute_full 50 (by norm_num) (by norm_num)⟩
